import Mathlib

/-!
Verification of the DynamicCPQ validation core: a shallow embedding of
`src/services/engine.ts` (deterministic evaluator) and
`src/services/z3Service.ts` (SAT validator with integer encoding of
categorical domains), together with theorems settling the frozen claims.

Modelling conventions:
* JavaScript values are modelled by `Scalar`/`Val`: strings, integers,
  booleans, `null`, `undefined`, and flat arrays of scalars.  The claims
  under verification only involve integer numerals, so JS numbers are
  embedded as `Int`; fractional values and exotic numeric string syntaxes
  (hex, exponent, decimals) are outside the embedded value space and no
  theorem below depends on them.
* A JS object used as a map is an association list with distinct keys in
  insertion order (`mapFind` / `mapSet`).
* The external solver and its possible failures are an oracle (`Z3Env`);
  the meaning of the generated formulas is given by `Z3Expr.holds`, and a
  correct solver is one whose `check` answer agrees with satisfiability.
* The `isRunning` flag and the `try/finally` of `validateZ3` are modelled
  by explicit state in `validateZ3`'s arguments and in `Z3Outcome`.
-/

/-- JS scalar values relevant to the validators. -/
inductive Scalar where
  | str (s : String)
  | num (n : Int)
  | bool (b : Bool)
  | null
  | undefined
deriving DecidableEq, Repr

/-- A JS value: a scalar or a flat array of scalars (arrays only occur as
`in`-operator targets and as option values in this codebase). -/
inductive Val where
  | scalar (s : Scalar)
  | arr (vs : List Scalar)
deriving DecidableEq, Repr

/-- `1` for `true`, `0` for `false` (JS `Number(boolean)`). -/
def boolToInt (b : Bool) : Int := if b then 1 else 0

/-- Whitespace for the purposes of JS numeric string trimming. -/
def isWsChar (c : Char) : Bool :=
  c == ' ' || c == '\t' || c == '\n' || c == '\r'

/-- Trim whitespace from both ends of a character list. -/
def trimChars (cs : List Char) : List Char :=
  ((cs.dropWhile isWsChar).reverse.dropWhile isWsChar).reverse

/-- Accumulate the value of a decimal digit string; `none` on the first
non-digit. -/
def parseDigitsAux : List Char → Nat → Option Nat
  | [], acc => some acc
  | c :: rest, acc =>
    if c.isDigit then parseDigitsAux rest (acc * 10 + (c.toNat - '0'.toNat))
    else none

/-- Value of a non-empty decimal digit string. -/
def parseDigits (cs : List Char) : Option Nat :=
  match cs with
  | [] => none
  | _ => parseDigitsAux cs 0

/-- JS `Number(string)` restricted to the embedded value space: a
whitespace-only string is `0`, optionally-negated decimal numerals have
their value, everything else is `NaN` (`none`). -/
def numOfString (s : String) : Option Int :=
  match trimChars s.data with
  | [] => some 0
  | '-' :: rest => (parseDigits rest).map (fun n => -(n : Int))
  | t => (parseDigits t).map (fun n => ((n : Int)))

/-- Decimal digits of a natural number; the first argument is structural
fuel (any fuel above the digit count yields the digits). -/
def natDigitsAux : Nat → Nat → List Char
  | 0, _ => []
  | fuel + 1, n =>
    if n < 10 then [Nat.digitChar n]
    else natDigitsAux fuel (n / 10) ++ [Nat.digitChar (n % 10)]

/-- Decimal rendering of a natural number. -/
def natToString (n : Nat) : String := ⟨natDigitsAux (n + 1) n⟩

/-- Decimal rendering of an integer (JS `String(number)` for integers). -/
def intToString : Int → String
  | .ofNat n => natToString n
  | .negSucc m => ⟨'-' :: (natToString (m + 1)).data⟩

/-- JS `String(scalar)`. -/
def scalarToString : Scalar → String
  | .str s => s
  | .num n => intToString n
  | .bool b => if b then "true" else "false"
  | .null => "null"
  | .undefined => "undefined"

/-- JS `Array.prototype.join(",")` element rendering: `null` and
`undefined` render as the empty string. -/
def joinElem : Scalar → String
  | .null => ""
  | .undefined => ""
  | s => scalarToString s

/-- Characters of a comma-joined scalar list. -/
def joinArrChars : List Scalar → List Char
  | [] => []
  | [v] => (joinElem v).data
  | v :: rest => (joinElem v).data ++ ',' :: joinArrChars rest

/-- JS `String(array)` (its `toString`, i.e. `join(",")`). -/
def joinArr (vs : List Scalar) : String := ⟨joinArrChars vs⟩

/-- JS `String(value)`. -/
def valToString : Val → String
  | .scalar s => scalarToString s
  | .arr vs => joinArr vs

/-- JS `Number(scalar)`; `none` is `NaN`. -/
def scalarToNum : Scalar → Option Int
  | .str s => numOfString s
  | .num n => some n
  | .bool b => some (boolToInt b)
  | .null => some 0
  | .undefined => none

/-- JS `Number(value)`; an array is converted through its string form. -/
def toNumVal : Val → Option Int
  | .scalar s => scalarToNum s
  | .arr vs => numOfString (joinArr vs)

/-- JS loose equality (`==`) on scalars (the Abstract Equality algorithm
restricted to primitives). -/
def looseEqScalar : Scalar → Scalar → Bool
  | .str a, .str b => a == b
  | .num a, .num b => a == b
  | .bool a, .bool b => a == b
  | .null, .null => true
  | .undefined, .undefined => true
  | .null, .undefined => true
  | .undefined, .null => true
  | .str s, .num n => numOfString s == some n
  | .num n, .str s => numOfString s == some n
  | .str s, .bool b => numOfString s == some (boolToInt b)
  | .bool b, .str s => numOfString s == some (boolToInt b)
  | .num n, .bool b => n == boolToInt b
  | .bool b, .num n => n == boolToInt b
  | _, _ => false

/-- JS loose equality on values.  A primitive compared to an array goes
through the array's primitive (string) form; `null`/`undefined` are never
loosely equal to an object; two distinct array objects are never `==`
(reference comparison). -/
def looseEqVal : Val → Val → Bool
  | .scalar a, .scalar b => looseEqScalar a b
  | .scalar a, .arr vs => looseEqScalar a (.str (joinArr vs))
  | .arr vs, .scalar b => looseEqScalar (.str (joinArr vs)) b
  | .arr _, .arr _ => false

/-- JS `>` after `Number(...)` coercion on both sides; any `NaN` makes the
comparison false. -/
def jsGtNum : Option Int → Option Int → Bool
  | some a, some b => decide (b < a)
  | _, _ => false

/-- JS `>=` after `Number(...)` coercion. -/
def jsGeNum : Option Int → Option Int → Bool
  | some a, some b => decide (b ≤ a)
  | _, _ => false

/-- JS `<` after `Number(...)` coercion. -/
def jsLtNum : Option Int → Option Int → Bool
  | some a, some b => decide (a < b)
  | _, _ => false

/-- JS `<=` after `Number(...)` coercion. -/
def jsLeNum : Option Int → Option Int → Bool
  | some a, some b => decide (a ≤ b)
  | _, _ => false

/-- `Array.isArray(target) && target.includes(value)`: membership by strict
(SameValueZero) equality; in this value model two distinct arrays are never
strictly equal. -/
def jsIncludes (target value : Val) : Bool :=
  match target, value with
  | .arr vs, .scalar s => vs.any (fun t => t == s)
  | _, _ => false

/-- `evaluateCondition` from `src/services/engine.ts`: undefined/null
configuration values never meet a condition; otherwise dispatch on the
operator string, with unknown operators evaluating to false. -/
def evaluateCondition (value : Val) (op : String) (target : Val) : Bool :=
  if value = Val.scalar .undefined ∨ value = Val.scalar .null then false
  else
    match op with
    | ">" => jsGtNum (toNumVal value) (toNumVal target)
    | ">=" => jsGeNum (toNumVal value) (toNumVal target)
    | "<" => jsLtNum (toNumVal value) (toNumVal target)
    | "<=" => jsLeNum (toNumVal value) (toNumVal target)
    | "==" => looseEqVal value target
    | "!=" => !looseEqVal value target
    | "in" => jsIncludes target value
    | _ => false

/-! ## Data model (`src/types.ts`) -/

/-- Attribute domain type. -/
inductive AttrType where
  | number
  | string
  | boolean
deriving DecidableEq, Repr

/-- One entry of `ProductAttribute.options`. -/
structure AttrOption where
  label : String
  value : Val
deriving DecidableEq, Repr

/-- `ProductAttribute`.  The engine reads `attr.required`, which is absent
from the TS interface, hence `undefined` (falsy) unless supplied by the
caller; it is modelled as a `Bool`.  The unused `name` is kept because the
schema violation message interpolates it. -/
structure ProductAttribute where
  id : String
  name : String
  type : AttrType
  options : Option (List AttrOption) := none
  required : Bool := false
deriving DecidableEq, Repr

/-- `Configuration`: a JS object mapping attribute id to value, modelled as
an association list in insertion order (a real JS object has distinct
keys). -/
abbrev Configuration := List (String × Val)

/-- `RuleCondition`.  The operator is kept as a raw string because both
evaluators dispatch on it with a default case.  The source field names
`attribute` and `operator` are reserved words in Lean, so they are
shortened to `attr` and `op`. -/
structure RuleCondition where
  attr : String
  op : String
  value : Val
deriving DecidableEq, Repr

/-- Rule kind. -/
inductive RuleType where
  | implication
  | exclusion
deriving DecidableEq, Repr

/-- `Rule`.  The metadata fields `source_clause`, `priority`, `confidence`
(a float) and `created_at` are read by neither validator and are omitted
from the embedding. -/
structure Rule where
  id : String
  source_doc : Option String := none
  natural_text : String
  type : RuleType
  condition : RuleCondition
  consequence : Option RuleCondition := none
  approved : Bool
deriving DecidableEq, Repr

/-- Violation severity. -/
inductive Severity where
  | error
  | warning
deriving DecidableEq, Repr

/-- `ValidationViolation`.  `involvedAttributes` is produced by both
validators (absent, i.e. `[]`, on the engine-crash violation). -/
structure ValidationViolation where
  rule_id : String
  message : String
  severity : Severity
  source : Option String := none
  involvedAttributes : List String := []
deriving DecidableEq, Repr

/-- `ValidationResult`. -/
structure ValidationResult where
  isValid : Bool
  violations : List ValidationViolation
deriving DecidableEq, Repr

/-- JS property read `config[key]`: `undefined` when the key is absent. -/
def lookupConfig (config : Configuration) (k : String) : Val :=
  match config.find? (fun p => p.1 == k) with
  | some p => p.2
  | none => .scalar .undefined

/-! ## Deterministic evaluator (`src/services/engine.ts`) -/

/-- The required-field check of `validateDeterministic`:
`val === undefined || val === null || val === ''`. -/
def isEmptyVal (v : Val) : Bool :=
  v == Val.scalar .undefined || v == Val.scalar .null || v == Val.scalar (.str "")

/-- The schema violation pushed for a missing required attribute. -/
def schemaViolation (attr : ProductAttribute) : ValidationViolation :=
  { rule_id := "schema-validation"
    message := attr.name ++ " is required."
    severity := .error
    source := some "System Schema"
    involvedAttributes := [attr.id] }

/-- Schema pass of `validateDeterministic` (step 1). -/
def schemaViolations (config : Configuration) (attributes : List ProductAttribute) :
    List ValidationViolation :=
  attributes.filterMap (fun attr =>
    if attr.required ∧ isEmptyVal (lookupConfig config attr.id) then
      some (schemaViolation attr)
    else none)

/-- The violation a single rule contributes in the rule pass of
`validateDeterministic` (the body of the `for` loop after the `approved`
check; its `try/catch` never fires on well-typed inputs since every
evaluation step is total). -/
def ruleViolation (config : Configuration) (rule : Rule) : Option ValidationViolation :=
  let conditionMet :=
    evaluateCondition (lookupConfig config rule.condition.attr)
      rule.condition.op rule.condition.value
  match rule.type with
  | .implication =>
    if conditionMet then
      match rule.consequence with
      | some cons =>
        if evaluateCondition (lookupConfig config cons.attr)
            cons.op cons.value then none
        else
          some { rule_id := rule.id
                 message := rule.natural_text
                 severity := .error
                 source := rule.source_doc
                 involvedAttributes := [rule.condition.attr, cons.attr] }
      | none => none
    else none
  | .exclusion =>
    if conditionMet then
      some { rule_id := rule.id
             message := rule.natural_text
             severity := .error
             source := rule.source_doc
             involvedAttributes := [rule.condition.attr] }
    else none

/-- `validateDeterministic`: schema violations first, then rule violations
in rule order, with unapproved rules skipped; valid iff no violations. -/
def validateDeterministic (config : Configuration) (rules : List Rule)
    (attributes : List ProductAttribute) : ValidationResult :=
  let violations :=
    schemaViolations config attributes ++
      rules.filterMap (fun rule =>
        if rule.approved then ruleViolation config rule else none)
  { isValid := violations.isEmpty, violations := violations }

example :
    evaluateCondition (.scalar (.num 12)) ">" (.scalar (.num 10)) = true := by decide

example :
    evaluateCondition (.scalar (.str "b")) ">" (.scalar (.str "a")) = false := by decide

example :
    evaluateCondition (.scalar (.num 5)) "==" (.scalar (.str "5")) = true := by decide

example :
    evaluateCondition (.scalar (.str "true")) "==" (.scalar (.bool true)) = false := by decide

example :
    evaluateCondition (.scalar (.str "x")) "in" (.arr [.str "x", .str "y"]) = true := by decide

/-! ## SAT validator (`src/services/z3Service.ts`) -/

/-- A literal-string to integer-code map for one attribute, in insertion
order with distinct keys (a JS object). -/
abbrev CodeMap := List (String × Int)

/-- The `valueMap` of one validation call: attribute id to `CodeMap`. -/
abbrev EncState := List (String × CodeMap)

/-- JS object property read. -/
def mapFind {α : Type} : List (String × α) → String → Option α
  | [], _ => none
  | p :: rest, k => if p.1 == k then some p.2 else mapFind rest k

/-- JS object property write: overwrite in place, or append a new key. -/
def mapSet {α : Type} : List (String × α) → String → α → List (String × α)
  | [], k, v => [(k, v)]
  | p :: rest, k, v => if p.1 == k then (k, v) :: rest else p :: mapSet rest k v

/-- `valueMap[attrId]`, with a missing entry read as the empty map (the
source lazily initialises it to `{}` before use). -/
def lookupEnc (st : EncState) (attrId : String) : CodeMap :=
  (mapFind st attrId).getD []

/-- Pre-seeding of one attribute's `CodeMap` from its declared options:
codes count up from 1 in declaration order, later duplicates of the same
string overwriting earlier entries (JS object assignment). -/
def seedOptions (opts : List AttrOption) : CodeMap :=
  (opts.foldl (fun acc opt => (mapSet acc.1 (valToString opt.value) acc.2, acc.2 + 1))
    (([] : CodeMap), (1 : Int))).1

/-- The `attributes.forEach` seeding loop: every attribute's map is reset
and filled from its options (`attr.options?.forEach` does nothing when
`options` is absent). -/
def seedMaps (attributes : List ProductAttribute) : EncState :=
  attributes.foldl (fun st attr => mapSet st attr.id (seedOptions (attr.options.getD []))) []

/-- `getCode`: numeric-typed attributes bypass the encoding and use the
raw number (a `NaN`, e.g. from a non-numeric string, makes the solver's
`Int.val` raise, modelled as `.error`); otherwise the literal's string
form is looked up in the attribute's map via `getCodeCat` below.  The
state is returned on every path because the JS maps are mutated in
place. -/
def getCodeCat (st : EncState) (attrId valStr : String) : Except Unit Int × EncState :=
  match mapFind (lookupEnc st attrId) valStr with
  | some c => (.ok c, st)
  | none =>
    (.ok (((lookupEnc st attrId).length : Int) + 1),
      mapSet st attrId
        (mapSet (lookupEnc st attrId) valStr (((lookupEnc st attrId).length : Int) + 1)))

/-- Shared categorical fallback of `getCode` (both the found-attribute and
unknown-attribute paths run it): look the literal string up, a fresh
literal receiving code `Object.keys(map).length + 1`. -/
def getCode (attributes : List ProductAttribute) (st : EncState) (attrId : String)
    (val : Val) : Except Unit Int × EncState :=
  match attributes.find? (fun a => a.id == attrId) with
  | some attr =>
    if attr.type = AttrType.number then
      match toNumVal val with
      | some n => (.ok n, st)
      | none => (.error (), st)
    else getCodeCat st attrId (valToString val)
  | none => getCodeCat st attrId (valToString val)

/-- The atomic formulas `getZ3Expr` can build: every one constrains a
single integer variable (one per attribute id). -/
inductive Z3Cond where
  | eq (a : String) (n : Int)
  | ne (a : String) (n : Int)
  | gt (a : String) (n : Int)
  | ge (a : String) (n : Int)
  | lt (a : String) (n : Int)
  | le (a : String) (n : Int)
  | inOr (a : String) (ns : List Int)
deriving DecidableEq, Repr

/-- The formulas submitted to the solver: raw conditions (assumptions),
`Implies` for implication rules, `Not` for exclusion rules. -/
inductive Z3Expr where
  | atom (c : Z3Cond)
  | implies (p q : Z3Cond)
  | notE (p : Z3Cond)
deriving DecidableEq, Repr

/-- The single variable a `Z3Cond` constrains. -/
def Z3Cond.var : Z3Cond → String
  | .eq a _ => a
  | .ne a _ => a
  | .gt a _ => a
  | .ge a _ => a
  | .lt a _ => a
  | .le a _ => a
  | .inOr a _ => a

/-- Truth of a `Z3Cond` under an integer assignment to the variables. -/
def Z3Cond.holds (σ : String → Int) : Z3Cond → Prop
  | .eq a n => σ a = n
  | .ne a n => σ a ≠ n
  | .gt a n => n < σ a
  | .ge a n => n ≤ σ a
  | .lt a n => σ a < n
  | .le a n => σ a ≤ n
  | .inOr a ns => ∃ n ∈ ns, σ a = n

/-- Truth of a submitted formula. -/
def Z3Expr.holds (σ : String → Int) : Z3Expr → Prop
  | .atom c => c.holds σ
  | .implies p q => p.holds σ → q.holds σ
  | .notE p => ¬ p.holds σ

/-- Joint satisfiability of the rule constraints and the configuration
assumptions: what `solver.check(...assumptions)` decides. -/
def satisfiable (constraints assumptions : List Z3Expr) : Prop :=
  ∃ σ : String → Int,
    (∀ e ∈ constraints, e.holds σ) ∧ (∀ e ∈ assumptions, e.holds σ)

/-- The element loop of the `in` case of `getZ3Expr`: `val.map(v =>
Eq(z3Var, Int.val(getCode(attrId, v))))`, coding elements left to right; a
raising element (numeric `NaN`) aborts the rule's translation but keeps
the state reached so far. -/
def inCodes (attributes : List ProductAttribute) (st : EncState) (attrId : String) :
    List Scalar → List Int → Except Unit Z3Cond × EncState
  | [], acc => (.ok (.inOr attrId acc), st)
  | v :: rest, acc =>
    match getCode attributes st attrId (.scalar v) with
    | (.error e, st1) => (.error e, st1)
    | (.ok c, st1) => inCodes attributes st1 attrId rest (acc ++ [c])

/-- `getZ3Expr`: codes the comparison value first (also for arrays — the
source computes `z3Val` before the switch, so an `in` target's joined
string enters the map), then dispatches on the operator, unknown operators
defaulting to equality. -/
def getZ3Expr (attributes : List ProductAttribute) (st : EncState) (attrId op : String)
    (val : Val) : Except Unit Z3Cond × EncState :=
  match getCode attributes st attrId val with
  | (.error e, st1) => (.error e, st1)
  | (.ok code, st1) =>
    match op with
    | "==" => (.ok (.eq attrId code), st1)
    | "!=" => (.ok (.ne attrId code), st1)
    | ">" => (.ok (.gt attrId code), st1)
    | ">=" => (.ok (.ge attrId code), st1)
    | "<" => (.ok (.lt attrId code), st1)
    | "<=" => (.ok (.le attrId code), st1)
    | "in" =>
      match val with
      | .arr vs => inCodes attributes st1 attrId vs []
      | _ => (.ok (.eq attrId code), st1)
    | _ => (.ok (.eq attrId code), st1)

/-- Translation of one approved rule (the body of the rule loop's `try`).
Any exception — a raising `getCode`, or reading `.attribute` off an absent
consequence (`rule.consequence!`) — is caught: the rule contributes no
constraint, the mutations already made to the maps remain, and the failure
is counted (second component) for the `console.warn` log. -/
def translateRule (attributes : List ProductAttribute) (st : EncState) (rule : Rule) :
    List Z3Expr × Nat × EncState :=
  match getZ3Expr attributes st rule.condition.attr rule.condition.op rule.condition.value with
  | (.error _, st1) => ([], 1, st1)
  | (.ok cond, st1) =>
    match rule.type with
    | .implication =>
      match rule.consequence with
      | none => ([], 1, st1)
      | some cons =>
        match getZ3Expr attributes st1 cons.attr cons.op cons.value with
        | (.error _, st2) => ([], 1, st2)
        | (.ok consC, st2) => ([.implies cond consC], 0, st2)
    | .exclusion => ([.notE cond], 0, st1)

/-- The rule loop: unapproved rules are skipped outright; constraints
accumulate in rule order, translation failures are counted. -/
def translateRules (attributes : List ProductAttribute) (st : EncState) :
    List Rule → List Z3Expr × Nat × EncState
  | [] => ([], 0, st)
  | rule :: rest =>
    if rule.approved then
      let (cs, f, st1) := translateRule attributes st rule
      let (cs2, f2, st2) := translateRules attributes st1 rest
      (cs ++ cs2, f + f2, st2)
    else translateRules attributes st rest

/-- The `userAssertions` loop over `Object.entries(config)`: entries whose
value is `undefined` or the empty string are skipped, the rest become
equality assumptions.  A raising `getCode` (numeric `NaN`) propagates out
of `validateZ3` (it is outside any `try/catch` below the `finally`). -/
def configAssertions (attributes : List ProductAttribute) (st : EncState) :
    Configuration → Except Unit (List Z3Expr) × EncState
  | [] => (.ok [], st)
  | (k, v) :: rest =>
    if v = Val.scalar .undefined ∨ v = Val.scalar (.str "") then
      configAssertions attributes st rest
    else
      match getCode attributes st k v with
      | (.error e, st1) => (.error e, st1)
      | (.ok c, st1) =>
        match configAssertions attributes st1 rest with
        | (.error e, st2) => (.error e, st2)
        | (.ok es, st2) => (.ok (Z3Expr.atom (.eq k c) :: es), st2)

/-- The rule constraints produced by one call on a fresh seeded state. -/
def z3Constraints (attributes : List ProductAttribute) (rules : List Rule) : List Z3Expr :=
  (translateRules attributes (seedMaps attributes) rules).1

/-- How many rules failed to translate in one call. -/
def ruleTranslationFailures (attributes : List ProductAttribute) (rules : List Rule) : Nat :=
  (translateRules attributes (seedMaps attributes) rules).2.1

/-- The encoder state after the rule pass. -/
def stateAfterRules (attributes : List ProductAttribute) (rules : List Rule) : EncState :=
  (translateRules attributes (seedMaps attributes) rules).2.2

/-- The configuration assumptions of one call (when none of them raise). -/
def z3Assumptions (attributes : List ProductAttribute) (rules : List Rule)
    (config : Configuration) : Except Unit (List Z3Expr) :=
  (configAssertions attributes (stateAfterRules attributes rules) config).1

/-- The encoder state at the end of one call — the literal-to-code mapping
the claims about the Domain Encoder quantify over. -/
def encStateAfterCall (attributes : List ProductAttribute) (rules : List Rule)
    (config : Configuration) : EncState :=
  (configAssertions attributes (stateAfterRules attributes rules) config).2

/-- Answers `solver.check` may return without raising. -/
inductive SolverOutcome where
  | sat
  | unsat
  | unknown
deriving DecidableEq, Repr

/-- The environment of one `validateZ3` call: whether the lazy context
initialisation raises, and what the external solver does on the submitted
constraint/assumption lists (`.error` = the check call raises). -/
structure Z3Env where
  initFails : Bool
  check : List Z3Expr → List Z3Expr → Except Unit SolverOutcome

/-- The one aggregate violation emitted on `unsat`: it implicates
`Object.keys(config)` — every key of the configuration object. -/
def unsatViolation (config : Configuration) : ValidationViolation :=
  { rule_id := "z3-constraint"
    message := "Configuration violates constraints (Detected by Z3 Engine)."
    severity := .error
    source := some "Z3 SAT Solver"
    involvedAttributes := config.map Prod.fst }

/-- The body of `validateZ3`'s `try` block: initialise the context, build
the maps, translate rules, assert the configuration, check; `.error` means
an exception escapes toward the caller (through the `finally`).  The
final `isValid := violations.length === 0` of the source is evaluated in
each branch of the unsat test. -/
def runBody (env : Z3Env) (config : Configuration) (rules : List Rule)
    (attributes : List ProductAttribute) : Except Unit ValidationResult :=
  if env.initFails then .error ()
  else
    match configAssertions attributes (stateAfterRules attributes rules) config with
    | (.error e, _) => .error e
    | (.ok assumptions, _) =>
      match env.check (z3Constraints attributes rules) assumptions with
      | .error e => .error e
      | .ok outcome =>
        if outcome = SolverOutcome.unsat then
          .ok { isValid := false, violations := [unsatViolation config] }
        else .ok { isValid := true, violations := [] }

/-- Observable outcome of one `validateZ3` call: the returned result or
escaping exception, whether the guarded body (solver interaction) ran at
all, and the state of the `isRunning` flag when the call is over. -/
structure Z3Outcome where
  result : Except Unit ValidationResult
  solverTouched : Bool
  endBusy : Bool
deriving Repr

/-- `validateZ3`: if a validation is already running, return a valid empty
result at once, leaving the flag to its owner; otherwise set the flag, run
the body, and — this is the `try/finally` — clear the flag whether the
body returns or raises. -/
def validateZ3 (env : Z3Env) (busy : Bool) (config : Configuration) (rules : List Rule)
    (attributes : List ProductAttribute) : Z3Outcome :=
  if busy then
    { result := .ok { isValid := true, violations := [] }
      solverTouched := false
      endBusy := busy }
  else
    { result := runBody env config rules attributes
      solverTouched := true
      endBusy := false }

/-- The violation `Z3SatEngine.validate` substitutes for a crash (the
source object carries no `involvedAttributes`). -/
def z3ErrorViolation : ValidationViolation :=
  { rule_id := "z3-error"
    message := "Z3 Engine Crashed. Please check console."
    severity := .error
    source := some "System"
    involvedAttributes := [] }

/-- `Z3SatEngine.validate`: delegate to `validateZ3`, converting any
escaping exception into a single invalid system-level result. -/
def Z3SatEngine.validate (env : Z3Env) (busy : Bool) (config : Configuration)
    (rules : List Rule) (attributes : List ProductAttribute) : ValidationResult :=
  match (validateZ3 env busy config rules attributes).result with
  | .ok r => r
  | .error _ => { isValid := false, violations := [z3ErrorViolation] }

/-! ## Helper lemmas -/

/-- Every `Except.ok` result `runBody` can produce carries the invariant
`isValid = violations.isEmpty`. -/
theorem runBody_ok_invariant (env : Z3Env) (config : Configuration) (rules : List Rule)
    (attributes : List ProductAttribute) (res : ValidationResult)
    (h : runBody env config rules attributes = .ok res) :
    res.isValid = res.violations.isEmpty := by
  unfold runBody at h
  split at h
  · simp at h
  · split at h
    · simp at h
    · split at h
      · simp at h
      · split at h
        · simp only [Except.ok.injEq] at h
          subst h
          rfl
        · simp only [Except.ok.injEq] at h
          subst h
          rfl

/-- Every `Except.ok` result `validateZ3` can produce carries the
invariant `isValid = violations.isEmpty`. -/
theorem validateZ3_ok_invariant (env : Z3Env) (busy : Bool) (config : Configuration)
    (rules : List Rule) (attributes : List ProductAttribute) (res : ValidationResult)
    (h : (validateZ3 env busy config rules attributes).result = .ok res) :
    res.isValid = res.violations.isEmpty := by
  cases busy
  · exact runBody_ok_invariant env config rules attributes res h
  · injection h with h1
    subst h1
    rfl

/-- A rule-pass step returns `none` on every unapproved rule, so filtering
the rule list to the approved rules first changes nothing. -/
theorem filterMap_rulePass (config : Configuration) (rules : List Rule) :
    rules.filterMap (fun rule => if rule.approved then ruleViolation config rule else none)
      = (rules.filter (fun rule => rule.approved)).filterMap
          (fun rule => if rule.approved then ruleViolation config rule else none) := by
  induction rules with
  | nil => rfl
  | cons r rest ih =>
    by_cases h : r.approved
    · simp [List.filterMap_cons, List.filter_cons, h, ih]
    · simp [List.filterMap_cons, List.filter_cons, h, ih]

/-- The rule loop of the translator skips unapproved rules outright, so it
is invariant under filtering to the approved rules. -/
theorem translateRules_filter (attributes : List ProductAttribute) (rules : List Rule)
    (st : EncState) :
    translateRules attributes st rules
      = translateRules attributes st (rules.filter (fun rule => rule.approved)) := by
  induction rules generalizing st with
  | nil => rfl
  | cons r rest ih =>
    by_cases h : r.approved
    · simp [translateRules, List.filter_cons, h, ih]
    · simp [translateRules, List.filter_cons, h, ih]

/-- A key that is not among a configuration's keys reads as `undefined`. -/
theorem lookupConfig_eq_undef (config : Configuration) (a : String)
    (h : a ∉ config.map Prod.fst) :
    lookupConfig config a = .scalar .undefined := by
  unfold lookupConfig
  have : config.find? (fun p => p.1 == a) = none := by
    rw [List.find?_eq_none]
    intro p hp
    simp only [beq_iff_eq]
    intro hpa
    exact h (List.mem_map.mpr ⟨p, hp, hpa⟩)
  rw [this]

/-! ## Claims -/

/-- C2: if a validation is already in flight (the busy flag is set),
`validateZ3` returns `{isValid: true, violations: []}` immediately: the
guarded body — solver initialisation, constraint building, the check call —
never runs (`solverTouched = false`), and the flag is left to the call that
owns it. -/
theorem claim_C2_busy_guard (env : Z3Env) (config : Configuration) (rules : List Rule)
    (attributes : List ProductAttribute) :
    validateZ3 env true config rules attributes
      = { result := .ok { isValid := true, violations := [] }
          solverTouched := false
          endBusy := true } := rfl

/-- C6: whatever the operator and comparison value, a condition on an
attribute the configuration has no key for evaluates to false in the
deterministic evaluator (the absent key reads as `undefined`). -/
theorem claim_C6_missing_value_false (config : Configuration) (a op : String) (target : Val)
    (h : a ∉ config.map Prod.fst) :
    evaluateCondition (lookupConfig config a) op target = false := by
  rw [lookupConfig_eq_undef config a h]
  unfold evaluateCondition
  simp

/-- Witness for C6 at a concrete input: key `"A"` is absent, the operator
is `"=="`, and the condition indeed evaluates to false. -/
theorem claim_C6_missing_value_false_witness :
    "A" ∉ ([("B", Val.scalar (.str "x"))] : Configuration).map Prod.fst ∧
      evaluateCondition (lookupConfig [("B", Val.scalar (.str "x"))] "A") "=="
        (Val.scalar (.str "x")) = false :=
  ⟨by decide,
   claim_C6_missing_value_false [("B", Val.scalar (.str "x"))] "A" "==" (Val.scalar (.str "x"))
     (by decide)⟩

/-- C7: every result either validator returns satisfies `isValid = true`
iff the violation list is empty — by construction for the deterministic
evaluator and for the `validateZ3` body, and because the engine's crash
handler emits one violation together with `isValid = false`. -/
theorem claim_C7_isValid_iff_no_violations (config : Configuration) (rules : List Rule)
    (attributes : List ProductAttribute) (env : Z3Env) (busy : Bool) :
    ((validateDeterministic config rules attributes).isValid
        = (validateDeterministic config rules attributes).violations.isEmpty) ∧
      ((Z3SatEngine.validate env busy config rules attributes).isValid
        = (Z3SatEngine.validate env busy config rules attributes).violations.isEmpty) := by
  refine ⟨rfl, ?_⟩
  unfold Z3SatEngine.validate
  cases hres : (validateZ3 env busy config rules attributes).result with
  | ok r => simpa using validateZ3_ok_invariant env busy config rules attributes r hres
  | error e => rfl

/-- C8: an unapproved rule is invisible to both validators: filtering the
rule list down to the approved rules changes neither the deterministic
result (so no violation can originate from a draft rule) nor any part of
the SAT path's behaviour (so a draft rule contributes no constraint). -/
theorem claim_C8_unapproved_invisible (config : Configuration) (rules : List Rule)
    (attributes : List ProductAttribute) (env : Z3Env) (busy : Bool) :
    (validateDeterministic config rules attributes
        = validateDeterministic config (rules.filter (fun rule => rule.approved)) attributes) ∧
      (validateZ3 env busy config rules attributes
        = validateZ3 env busy config (rules.filter (fun rule => rule.approved)) attributes) := by
  constructor
  · unfold validateDeterministic
    rw [filterMap_rulePass]
  · unfold validateZ3
    cases busy
    · have h1 : stateAfterRules attributes rules
          = stateAfterRules attributes (rules.filter (fun rule => rule.approved)) := by
        unfold stateAfterRules
        rw [← translateRules_filter]
      have h2 : z3Constraints attributes rules
          = z3Constraints attributes (rules.filter (fun rule => rule.approved)) := by
        unfold z3Constraints
        rw [← translateRules_filter]
      simp only [Bool.false_eq_true, if_false]
      unfold runBody
      rw [h1, h2]
    · rfl

/-- C9: an approved implication rule with no consequence never yields a
deterministic violation — the truthiness check on `rule.consequence` short
circuits — even when its condition holds, and prepending such a rule to
any rule list leaves the deterministic result unchanged. -/
theorem claim_C9_implication_without_consequence (config : Configuration) (rule : Rule)
    (h1 : rule.type = RuleType.implication) (h2 : rule.consequence = none) :
    ruleViolation config rule = none ∧
      ∀ (rules : List Rule) (attributes : List ProductAttribute),
        validateDeterministic config (rule :: rules) attributes
          = validateDeterministic config rules attributes := by
  have hnone : ruleViolation config rule = none := by
    unfold ruleViolation
    rw [h1, h2]
    simp
  refine ⟨hnone, fun rules attributes => ?_⟩
  unfold validateDeterministic
  simp [List.filterMap_cons, hnone]

/-- Witness for C9 at a concrete input: the rule is an approved implication
with an absent consequence, its condition evaluates to true on the given
configuration, and still no violation is produced. -/
theorem claim_C9_implication_without_consequence_witness :
    evaluateCondition (lookupConfig [("A", Val.scalar (.str "x"))] "A") "=="
        (Val.scalar (.str "x")) = true ∧
      ruleViolation [("A", Val.scalar (.str "x"))]
        { id := "r", natural_text := "t", type := .implication,
          condition := { attr := "A", op := "==", value := Val.scalar (.str "x") },
          consequence := none, approved := true } = none :=
  ⟨by decide,
   (claim_C9_implication_without_consequence [("A", Val.scalar (.str "x"))]
      { id := "r", natural_text := "t", type := .implication,
        condition := { attr := "A", op := "==", value := Val.scalar (.str "x") },
        consequence := none, approved := true } rfl rfl).1⟩

/-- C10: a `validateZ3` call that passes the busy check always ends with
the busy flag cleared — the `try/finally` resets it on normal return and
on an escaping exception alike, for every environment (including a raising
initialisation, translation, or check). -/
theorem claim_C10_busy_always_cleared (env : Z3Env) (config : Configuration)
    (rules : List Rule) (attributes : List ProductAttribute) :
    (validateZ3 env false config rules attributes).endBusy = false := rfl

/-! ## C4: escaping exceptions vs per-rule translation faults -/

/-- An approved implication rule whose consequence is absent: translating
it raises (`rule.consequence!.attribute` on `undefined`), and the rule
loop's `catch` swallows the exception. -/
def c4BadRule : Rule :=
  { id := "r-bad", natural_text := "implication without consequence",
    type := .implication,
    condition := { attr := "A", op := "==", value := .scalar (.str "x") },
    consequence := none, approved := true }

/-- An environment whose initialisation works and whose solver finds the
(empty) constraint set satisfiable. -/
def c4EnvSat : Z3Env := { initFails := false, check := fun _ _ => .ok .sat }

/-- C4 as stated is false: here an exception is raised during the
translation of a rule (`ruleTranslationFailures = 1`), yet the SAT path
returns a *valid* result — the per-rule `catch` skips the rule and
validation continues.  The empty remaining formula is genuinely
satisfiable, so a correct solver answers `sat` as this environment does. -/
theorem claim_C4_counterexample :
    ruleTranslationFailures [] [c4BadRule] = 1 ∧
      (validateZ3 c4EnvSat false [] [c4BadRule] []).result
        = .ok { isValid := true, violations := [] } ∧
      Z3SatEngine.validate c4EnvSat false [] [c4BadRule] []
        = { isValid := true, violations := [] } ∧
      satisfiable (z3Constraints [] [c4BadRule]) [] := by
  have hz : z3Constraints [] [c4BadRule] = ([] : List Z3Expr) := by decide
  refine ⟨by decide, by rfl, by rfl, ⟨fun _ => 0, ?_, ?_⟩⟩
  · intro e he
    rw [hz] at he
    simp at he
  · intro e he
    simp at he

/-- C4 amended: only an exception that escapes the validation body —
solver initialisation, asserting the configuration, or the check call —
makes the SAT path return `isValid = false` with a single system-level
violation (the engine's crash handler); an exception during the
translation of an individual rule is caught, that rule is skipped, and
validation continues (possibly reporting valid, per the counterexample). -/
theorem claim_C4_escaping_exception_invalid (env : Z3Env) (config : Configuration)
    (rules : List Rule) (attributes : List ProductAttribute)
    (h : runBody env config rules attributes = .error ()) :
    Z3SatEngine.validate env false config rules attributes
      = { isValid := false, violations := [z3ErrorViolation] } := by
  unfold Z3SatEngine.validate
  have hres : (validateZ3 env false config rules attributes).result
      = runBody env config rules attributes := rfl
  rw [hres, h]

/-- Witness for the amended C4 at a concrete input: a raising solver
initialisation escapes the body and the engine reports a single invalid
system-level violation. -/
theorem claim_C4_escaping_exception_invalid_witness :
    runBody { initFails := true, check := fun _ _ => .ok .sat } [] [] [] = .error () ∧
      Z3SatEngine.validate { initFails := true, check := fun _ _ => .ok .sat } false [] [] []
        = { isValid := false, violations := [z3ErrorViolation] } :=
  ⟨rfl, claim_C4_escaping_exception_invalid _ [] [] [] rfl⟩

/-! ## C3: what the unsat violation implicates -/

/-- Modelled from the claim's words: the ids of the attributes currently
set to a non-empty value — the entries the assertion loop actually keeps
(neither `undefined` nor the empty string). -/
def nonEmptySetIds (config : Configuration) : List String :=
  (config.filter
    (fun p => !(p.2 == Val.scalar .undefined) && !(p.2 == Val.scalar (.str "")))).map Prod.fst

/-- The rule set of the C3 instance: one approved exclusion on `A == "x"`. -/
def c3Rules : List Rule :=
  [{ id := "r1", natural_text := "A must not be x", type := .exclusion,
     condition := { attr := "A", op := "==", value := .scalar (.str "x") },
     approved := true }]

/-- The configuration of the C3 instance: `A` set to `"x"`, `B` present
but holding the empty string. -/
def c3Config : Configuration :=
  [("A", Val.scalar (.str "x")), ("B", Val.scalar (.str ""))]

/-- An environment whose solver answers `unsat` (correctly, on this
instance). -/
def c3EnvUnsat : Z3Env := { initFails := false, check := fun _ _ => .ok .unsat }

/-- C3 as stated is false: on an unsat answer the single violation
implicates `Object.keys(config)` — here `["A", "B"]` — although only `A`
is set to a non-empty value (`B` holds `""` and is not even asserted).
The final conjunct shows the instance really is unsatisfiable, so a
correct solver answers `unsat` as this environment does. -/
theorem claim_C3_counterexample :
    (validateZ3 c3EnvUnsat false c3Config c3Rules []).result
        = .ok { isValid := false, violations := [unsatViolation c3Config] } ∧
      (unsatViolation c3Config).involvedAttributes = ["A", "B"] ∧
      nonEmptySetIds c3Config = ["A"] ∧
      (unsatViolation c3Config).involvedAttributes ≠ nonEmptySetIds c3Config ∧
      z3Assumptions [] c3Rules c3Config = .ok [.atom (.eq "A" 1)] ∧
      ¬ satisfiable (z3Constraints [] c3Rules) [.atom (.eq "A" 1)] := by
  refine ⟨by rfl, by decide, by decide, by decide, by rfl, ?_⟩
  rintro ⟨σ, hc, ha⟩
  have h1 : σ "A" = 1 := ha (.atom (.eq "A" 1)) (by simp)
  have h2 : ¬ σ "A" = 1 := by
    have := hc (.notE (.eq "A" 1)) (by decide)
    simpa [Z3Expr.holds, Z3Cond.holds] using this
  exact h2 h1

/-- C3 amended: when the solver reports unsat, `validateZ3` returns
`isValid = false` with exactly one violation, and that violation's
implicated attribute list is exactly *all keys of the configuration
object* (`Object.keys(config)`), including keys whose value is empty or
undefined — not only the attributes set to a non-empty value. -/
theorem claim_C3_unsat_aggregate (env : Z3Env) (config : Configuration) (rules : List Rule)
    (attributes : List ProductAttribute) (assumptions : List Z3Expr)
    (hinit : env.initFails = false)
    (hA : z3Assumptions attributes rules config = .ok assumptions)
    (hcheck : env.check (z3Constraints attributes rules) assumptions = .ok .unsat) :
    (validateZ3 env false config rules attributes).result
        = .ok { isValid := false, violations := [unsatViolation config] } ∧
      (unsatViolation config).involvedAttributes = config.map Prod.fst := by
  refine ⟨?_, rfl⟩
  have hres : (validateZ3 env false config rules attributes).result
      = runBody env config rules attributes := rfl
  rw [hres]
  unfold runBody
  rw [hinit]
  simp only [Bool.false_eq_true, if_false]
  unfold z3Assumptions at hA
  rcases hconf : configAssertions attributes (stateAfterRules attributes rules) config
    with ⟨r, st2⟩
  rw [hconf] at hA
  simp only at hA
  subst hA
  dsimp only
  rw [hcheck]
  rfl

/-- Witness for the amended C3 at the concrete instance above. -/
theorem claim_C3_unsat_aggregate_witness :
    z3Assumptions [] c3Rules c3Config = .ok [.atom (.eq "A" 1)] ∧
      ((validateZ3 c3EnvUnsat false c3Config c3Rules []).result
          = .ok { isValid := false, violations := [unsatViolation c3Config] } ∧
        (unsatViolation c3Config).involvedAttributes = c3Config.map Prod.fst) :=
  ⟨rfl, claim_C3_unsat_aggregate c3EnvUnsat c3Config c3Rules [] [.atom (.eq "A" 1)]
    rfl rfl rfl⟩

/-! ## Encoder invariants: association-map lemmas -/

/-- A key is absent from an association map iff `mapFind` misses. -/
theorem mapFind_eq_none {α : Type} (m : List (String × α)) (k : String) :
    mapFind m k = none ↔ k ∉ m.map Prod.fst := by
  induction m with
  | nil => simp [mapFind]
  | cons p rest ih =>
    by_cases h : p.1 = k
    · simp [mapFind, h]
    · simp [mapFind, h, ih, Ne.symm h]

/-- Setting an absent key appends it. -/
theorem mapSet_of_not_mem {α : Type} (m : List (String × α)) (k : String) (v : α)
    (h : k ∉ m.map Prod.fst) : mapSet m k v = m ++ [(k, v)] := by
  induction m with
  | nil => rfl
  | cons p rest ih =>
    simp only [List.map_cons, List.mem_cons] at h
    push_neg at h
    simp [mapSet, Ne.symm h.1, ih h.2]

/-- Reading back the key just set. -/
theorem mapFind_mapSet_self {α : Type} (m : List (String × α)) (k : String) (v : α) :
    mapFind (mapSet m k v) k = some v := by
  induction m with
  | nil => simp [mapSet, mapFind]
  | cons p rest ih =>
    by_cases h : p.1 = k
    · simp [mapSet, mapFind, h]
    · simp [mapSet, mapFind, h, ih]

/-- Setting one key leaves every other key's reading unchanged. -/
theorem mapFind_mapSet_ne {α : Type} (m : List (String × α)) (k a : String) (v : α)
    (h : a ≠ k) : mapFind (mapSet m k v) a = mapFind m a := by
  induction m with
  | nil => simp [mapSet, mapFind, Ne.symm h]
  | cons p rest ih =>
    by_cases hp : p.1 = k
    · simp [mapSet, mapFind, hp, Ne.symm h]
    · by_cases hpa : p.1 = a
      · simp [mapSet, mapFind, hp, hpa, h]
      · simp [mapSet, mapFind, hp, hpa, ih]

/-- `lookupEnc` after setting the same attribute. -/
theorem lookupEnc_mapSet_self (st : EncState) (k : String) (m : CodeMap) :
    lookupEnc (mapSet st k m) k = m := by
  simp [lookupEnc, mapFind_mapSet_self]

/-- `lookupEnc` after setting a different attribute. -/
theorem lookupEnc_mapSet_ne (st : EncState) (k a : String) (m : CodeMap) (h : a ≠ k) :
    lookupEnc (mapSet st k m) a = lookupEnc st a := by
  simp [lookupEnc, mapFind_mapSet_ne st k a m h]

/-! ## Encoder invariants: the code range invariant -/

/-- The codes `1..n` in order. -/
def rangeCodes (n : Nat) : List Int := (List.range n).map (fun i : Nat => ((i : Int) + 1))

/-- A well-formed attribute map: distinct literal keys, and the code list
is exactly `1..length` in insertion order. -/
def goodMap (m : CodeMap) : Prop :=
  (m.map Prod.fst).Nodup ∧ m.map Prod.snd = rangeCodes m.length

/-- Every attribute map of the state is well formed. -/
def goodSt (st : EncState) : Prop := ∀ a, goodMap (lookupEnc st a)

/-- What C5 calls injectivity: distinct literals, distinct codes, and all
codes positive. -/
def injectiveCoding (m : CodeMap) : Prop :=
  (m.map Prod.fst).Nodup ∧ (m.map Prod.snd).Nodup ∧ ∀ c ∈ m.map Prod.snd, (1 : Int) ≤ c

/-- State evolution inside one call only ever adds codes: every
literal-code binding present before is present after. -/
def stExtends (st st' : EncState) : Prop :=
  ∀ a s c, mapFind (lookupEnc st a) s = some c → mapFind (lookupEnc st' a) s = some c

theorem stExtends_refl (st : EncState) : stExtends st st := fun _ _ _ h => h

theorem stExtends_trans {st1 st2 st3 : EncState} (h1 : stExtends st1 st2)
    (h2 : stExtends st2 st3) : stExtends st1 st3 :=
  fun a s c h => h2 a s c (h1 a s c h)

theorem rangeCodes_zero : rangeCodes 0 = [] := rfl

theorem rangeCodes_succ (n : Nat) : rangeCodes (n + 1) = rangeCodes n ++ [(n : Int) + 1] := by
  simp [rangeCodes, List.range_succ]

theorem rangeCodes_nodup (n : Nat) : (rangeCodes n).Nodup := by
  have hinj : Function.Injective (fun i : Nat => (i : Int) + 1) := by
    intro i j hij
    simpa using hij
  exact List.Nodup.map hinj (List.nodup_range n)

theorem goodMap_nil : goodMap [] := ⟨List.nodup_nil, rfl⟩

theorem goodMap_values_nodup {m : CodeMap} (h : goodMap m) : (m.map Prod.snd).Nodup := by
  rw [h.2]
  exact rangeCodes_nodup m.length

theorem goodMap_codes_pos {m : CodeMap} (h : goodMap m) : ∀ c ∈ m.map Prod.snd, (1 : Int) ≤ c := by
  rw [h.2]
  intro c hc
  simp only [rangeCodes, List.mem_map, List.mem_range] at hc
  obtain ⟨i, _, rfl⟩ := hc
  omega

theorem injectiveCoding_of_goodMap {m : CodeMap} (h : goodMap m) : injectiveCoding m :=
  ⟨h.1, goodMap_values_nodup h, goodMap_codes_pos h⟩

/-- Inserting a fresh literal with code `length + 1` preserves the
invariant — the code is not yet in use. -/
theorem goodMap_extend {m : CodeMap} {k : String} (h : goodMap m)
    (hk : k ∉ m.map Prod.fst) : goodMap (mapSet m k ((m.length : Int) + 1)) := by
  rw [mapSet_of_not_mem m k _ hk]
  constructor
  · simp only [List.map_append, List.map_cons, List.map_nil]
    refine List.Nodup.append h.1 (List.nodup_singleton k) ?_
    intro x hx hmem
    simp only [List.mem_singleton] at hmem
    subst hmem
    exact hk hx
  · simp only [List.map_append, List.map_cons, List.map_nil, List.length_append,
      List.length_cons, List.length_nil]
    rw [h.2, rangeCodes_succ]

/-! ## Encoder invariants: preservation along one call -/

/-- Inserting a fresh literal into one attribute's map preserves the state
invariant and all existing bindings. -/
theorem fresh_insert_preserves (st : EncState) (attrId s : String) (h : goodSt st)
    (hs : mapFind (lookupEnc st attrId) s = none) :
    goodSt (mapSet st attrId
        (mapSet (lookupEnc st attrId) s (((lookupEnc st attrId).length : Int) + 1))) ∧
      stExtends st (mapSet st attrId
        (mapSet (lookupEnc st attrId) s (((lookupEnc st attrId).length : Int) + 1))) := by
  constructor
  · intro a
    by_cases ha : a = attrId
    · subst ha
      rw [lookupEnc_mapSet_self]
      exact goodMap_extend (h a) ((mapFind_eq_none _ _).mp hs)
    · rw [lookupEnc_mapSet_ne _ _ _ _ ha]
      exact h a
  · intro a s' c' hf
    by_cases ha : a = attrId
    · subst ha
      rw [lookupEnc_mapSet_self]
      have hne : s' ≠ s := by
        intro he
        subst he
        rw [hs] at hf
        exact Option.noConfusion hf
      rw [mapFind_mapSet_ne _ _ _ _ hne]
      exact hf
    · rw [lookupEnc_mapSet_ne _ _ _ _ ha]
      exact hf

/-- `getCodeCat` preserves the invariant and existing bindings. -/
theorem getCodeCat_preserves (st : EncState) (attrId valStr : String) (h : goodSt st) :
    goodSt (getCodeCat st attrId valStr).2 ∧ stExtends st (getCodeCat st attrId valStr).2 := by
  unfold getCodeCat
  cases hf : mapFind (lookupEnc st attrId) valStr with
  | some c => exact ⟨h, stExtends_refl st⟩
  | none => exact fresh_insert_preserves st attrId valStr h hf

/-- `getCodeCat` always succeeds, and its code is bound to the literal in
the resulting state. -/
theorem getCodeCat_codes (st : EncState) (attrId valStr : String) :
    ∃ c st', getCodeCat st attrId valStr = (.ok c, st') ∧
      mapFind (lookupEnc st' attrId) valStr = some c := by
  unfold getCodeCat
  cases hf : mapFind (lookupEnc st attrId) valStr with
  | some c => exact ⟨c, st, rfl, hf⟩
  | none =>
    refine ⟨_, _, rfl, ?_⟩
    rw [lookupEnc_mapSet_self, mapFind_mapSet_self]

/-- `getCode` preserves the invariant and existing bindings. -/
theorem getCode_preserves (attributes : List ProductAttribute) (st : EncState)
    (attrId : String) (val : Val) (h : goodSt st) :
    goodSt (getCode attributes st attrId val).2 ∧
      stExtends st (getCode attributes st attrId val).2 := by
  unfold getCode
  cases hf : attributes.find? (fun a => a.id == attrId) with
  | some attr =>
    dsimp only
    by_cases ht : attr.type = AttrType.number
    · rw [if_pos ht]
      cases toNumVal val with
      | some n => exact ⟨h, stExtends_refl st⟩
      | none => exact ⟨h, stExtends_refl st⟩
    · rw [if_neg ht]
      exact getCodeCat_preserves st attrId (valToString val) h
  | none => exact getCodeCat_preserves st attrId (valToString val) h

/-- The element loop of the `in` translation preserves the invariant and
existing bindings. -/
theorem inCodes_preserves (attributes : List ProductAttribute) (attrId : String)
    (vs : List Scalar) : ∀ (acc : List Int) (st : EncState), goodSt st →
    goodSt (inCodes attributes st attrId vs acc).2 ∧
      stExtends st (inCodes attributes st attrId vs acc).2 := by
  induction vs with
  | nil =>
    intro acc st h
    exact ⟨h, stExtends_refl st⟩
  | cons v rest ih =>
    intro acc st h
    have hgc := getCode_preserves attributes st attrId (.scalar v) h
    rcases hq : getCode attributes st attrId (.scalar v) with ⟨r, st1⟩
    rw [hq] at hgc
    simp only at hgc
    cases r with
    | error e =>
      simp only [inCodes, hq]
      exact hgc
    | ok c =>
      simp only [inCodes, hq]
      have hrest := ih (acc ++ [c]) st1 hgc.1
      exact ⟨hrest.1, stExtends_trans hgc.2 hrest.2⟩

/-- `getZ3Expr` preserves the invariant and existing bindings. -/
theorem getZ3Expr_preserves (attributes : List ProductAttribute) (st : EncState)
    (attrId op : String) (val : Val) (h : goodSt st) :
    goodSt (getZ3Expr attributes st attrId op val).2 ∧
      stExtends st (getZ3Expr attributes st attrId op val).2 := by
  have hgc := getCode_preserves attributes st attrId val h
  unfold getZ3Expr
  rcases hq : getCode attributes st attrId val with ⟨r, st1⟩
  rw [hq] at hgc
  simp only at hgc
  cases r with
  | error e => exact hgc
  | ok code =>
    dsimp only
    split
    · exact hgc
    · exact hgc
    · exact hgc
    · exact hgc
    · exact hgc
    · exact hgc
    · split
      · rename_i vs
        have hrest := inCodes_preserves attributes attrId vs [] st1 hgc.1
        exact ⟨hrest.1, stExtends_trans hgc.2 hrest.2⟩
      · exact hgc
    · exact hgc

/-- One rule's translation preserves the invariant and existing bindings
— also when it fails partway. -/
theorem translateRule_preserves (attributes : List ProductAttribute) (st : EncState)
    (rule : Rule) (h : goodSt st) :
    goodSt (translateRule attributes st rule).2.2 ∧
      stExtends st (translateRule attributes st rule).2.2 := by
  have h1 := getZ3Expr_preserves attributes st rule.condition.attr rule.condition.op
    rule.condition.value h
  unfold translateRule
  rcases hq : getZ3Expr attributes st rule.condition.attr rule.condition.op
      rule.condition.value with ⟨r, st1⟩
  rw [hq] at h1
  simp only at h1
  cases r with
  | error e => exact h1
  | ok cond =>
    dsimp only
    cases rule.type with
    | implication =>
      cases rule.consequence with
      | none => exact h1
      | some cons =>
        have h2 := getZ3Expr_preserves attributes st1 cons.attr cons.op cons.value h1.1
        rcases hq2 : getZ3Expr attributes st1 cons.attr cons.op cons.value with ⟨r2, st2⟩
        rw [hq2] at h2
        simp only at h2
        dsimp only
        rw [hq2]
        cases r2 with
        | error e => exact ⟨h2.1, stExtends_trans h1.2 h2.2⟩
        | ok consC => exact ⟨h2.1, stExtends_trans h1.2 h2.2⟩
    | exclusion => exact h1

/-- The whole rule loop preserves the invariant and existing bindings. -/
theorem translateRules_preserves (attributes : List ProductAttribute) (rules : List Rule) :
    ∀ (st : EncState), goodSt st →
    goodSt (translateRules attributes st rules).2.2 ∧
      stExtends st (translateRules attributes st rules).2.2 := by
  induction rules with
  | nil =>
    intro st h
    exact ⟨h, stExtends_refl st⟩
  | cons r rest ih =>
    intro st h
    by_cases ha : r.approved
    · have h1 := translateRule_preserves attributes st r h
      rcases hq : translateRule attributes st r with ⟨cs, f, st1⟩
      rw [hq] at h1
      simp only at h1
      have h2 := ih st1 h1.1
      rcases hq2 : translateRules attributes st1 rest with ⟨cs2, f2, st2⟩
      rw [hq2] at h2
      simp only at h2
      simp only [translateRules, ha, if_true, hq, hq2]
      exact ⟨h2.1, stExtends_trans h1.2 h2.2⟩
    · simp only [translateRules, ha, if_false]
      exact ih st h

/-- The configuration assertion loop preserves the invariant and existing
bindings — also when an entry raises partway. -/
theorem configAssertions_preserves (attributes : List ProductAttribute)
    (config : Configuration) : ∀ (st : EncState), goodSt st →
    goodSt (configAssertions attributes st config).2 ∧
      stExtends st (configAssertions attributes st config).2 := by
  induction config with
  | nil =>
    intro st h
    exact ⟨h, stExtends_refl st⟩
  | cons p rest ih =>
    intro st h
    rcases p with ⟨k, v⟩
    by_cases hskip : v = Val.scalar .undefined ∨ v = Val.scalar (.str "")
    · simp only [configAssertions, hskip, if_true]
      exact ih st h
    · have h1 := getCode_preserves attributes st k v h
      rcases hq : getCode attributes st k v with ⟨r, st1⟩
      rw [hq] at h1
      simp only at h1
      cases r with
      | error e =>
        simp only [configAssertions, hskip, if_false, hq]
        exact h1
      | ok c =>
        have h2 := ih st1 h1.1
        rcases hq2 : configAssertions attributes st1 rest with ⟨r2, st2⟩
        rw [hq2] at h2
        simp only at h2
        simp only [configAssertions, hskip, if_false, hq, hq2]
        cases r2 with
        | error e => exact ⟨h2.1, stExtends_trans h1.2 h2.2⟩
        | ok es => exact ⟨h2.1, stExtends_trans h1.2 h2.2⟩

/-! ## Encoder invariants: seeding -/

/-- The option-seeding fold, run from a well-formed accumulator whose next
counter is `length + 1`, with fresh and pairwise-distinct option strings:
the result is well formed and appends the option strings in order. -/
theorem seedFold_spec (opts : List AttrOption) :
    ∀ (acc : CodeMap), goodMap acc →
    (∀ o ∈ opts, valToString o.value ∉ acc.map Prod.fst) →
    (opts.map (fun o => valToString o.value)).Nodup →
    goodMap ((opts.foldl (fun ac opt => (mapSet ac.1 (valToString opt.value) ac.2, ac.2 + 1))
        (acc, (acc.length : Int) + 1)).1) ∧
      ((opts.foldl (fun ac opt => (mapSet ac.1 (valToString opt.value) ac.2, ac.2 + 1))
          (acc, (acc.length : Int) + 1)).1).map Prod.fst
        = acc.map Prod.fst ++ opts.map (fun o => valToString o.value) := by
  induction opts with
  | nil =>
    intro acc hacc _ _
    exact ⟨hacc, by simp⟩
  | cons o rest ih =>
    intro acc hacc hdisj hnodup
    have hs : valToString o.value ∉ acc.map Prod.fst := hdisj o (by simp)
    have hset : mapSet acc (valToString o.value) ((acc.length : Int) + 1)
        = acc ++ [(valToString o.value, (acc.length : Int) + 1)] :=
      mapSet_of_not_mem _ _ _ hs
    have hgood' : goodMap (mapSet acc (valToString o.value) ((acc.length : Int) + 1)) :=
      goodMap_extend hacc hs
    simp only [List.map_cons, List.nodup_cons] at hnodup
    have hkeys' : (mapSet acc (valToString o.value) ((acc.length : Int) + 1)).map Prod.fst
        = acc.map Prod.fst ++ [valToString o.value] := by
      rw [hset]
      simp
    have hlen : ((mapSet acc (valToString o.value) ((acc.length : Int) + 1)).length : Int) + 1
        = (((acc.length : Int) + 1) + 1 : Int) := by
      rw [hset]
      simp only [List.length_append, List.length_cons, List.length_nil]
      push_cast
      ring
    have hdisj' : ∀ o' ∈ rest,
        valToString o'.value
          ∉ (mapSet acc (valToString o.value) ((acc.length : Int) + 1)).map Prod.fst := by
      intro o' ho'
      rw [hkeys']
      simp only [List.mem_append, List.mem_singleton]
      rintro (hmem | heq)
      · exact hdisj o' (by simp [ho']) hmem
      · exact hnodup.1 (heq ▸ List.mem_map_of_mem (fun x => valToString x.value) ho')
    have hih := ih (mapSet acc (valToString o.value) ((acc.length : Int) + 1)) hgood'
      hdisj' hnodup.2
    rw [hlen] at hih
    rw [List.foldl_cons]
    dsimp only
    refine ⟨hih.1, ?_⟩
    rw [hih.2, hkeys']
    simp

/-- With pairwise-distinct option strings, `seedOptions` is well formed
and its keys are the option strings in declaration order (hence its codes
are `1..N`). -/
theorem seedOptions_spec (opts : List AttrOption)
    (h : (opts.map (fun o => valToString o.value)).Nodup) :
    goodMap (seedOptions opts) ∧
      (seedOptions opts).map Prod.fst = opts.map (fun o => valToString o.value) := by
  unfold seedOptions
  have h0 : ((([] : CodeMap).length : Int) + 1) = (1 : Int) := by simp
  have hf := seedFold_spec opts [] goodMap_nil (by simp) h
  rw [h0] at hf
  simpa using hf

/-- With every attribute's option strings pairwise distinct, the seeded
state is well formed. -/
theorem seedMaps_good (attributes : List ProductAttribute)
    (hopts : ∀ attr ∈ attributes,
      ((attr.options.getD []).map (fun o => valToString o.value)).Nodup) :
    goodSt (seedMaps attributes) := by
  unfold seedMaps
  have hgen : ∀ (l : List ProductAttribute) (st : EncState), goodSt st →
      (∀ attr ∈ l, ((attr.options.getD []).map (fun o => valToString o.value)).Nodup) →
      goodSt (l.foldl
        (fun st attr => mapSet st attr.id (seedOptions (attr.options.getD []))) st) := by
    intro l
    induction l with
    | nil =>
      intro st h _
      exact h
    | cons a rest ih =>
      intro st h hno
      dsimp only [List.foldl_cons]
      apply ih
      · intro x
        by_cases hx : x = a.id
        · subst hx
          rw [lookupEnc_mapSet_self]
          exact (seedOptions_spec _ (hno a (by simp))).1
        · rw [lookupEnc_mapSet_ne _ _ _ _ hx]
          exact h x
      · intro attr hattr
        exact hno attr (by simp [hattr])
  refine hgen attributes [] (fun a => ?_) hopts
  simp only [lookupEnc, mapFind, Option.getD_none]
  exact goodMap_nil

/-- The seeding fold does not touch attributes outside the list. -/
theorem seedMaps_untouched (l : List ProductAttribute) :
    ∀ (st : EncState) (k : String), k ∉ l.map (fun a => a.id) →
    lookupEnc (l.foldl
        (fun st attr => mapSet st attr.id (seedOptions (attr.options.getD []))) st) k
      = lookupEnc st k := by
  induction l with
  | nil =>
    intro st k _
    rfl
  | cons a rest ih =>
    intro st k hk
    simp only [List.map_cons, List.mem_cons] at hk
    push_neg at hk
    dsimp only [List.foldl_cons]
    rw [ih _ k hk.2, lookupEnc_mapSet_ne _ _ _ _ hk.1]

/-- With distinct attribute ids, each attribute's seeded map is exactly
`seedOptions` of its declared options. -/
theorem seedMaps_lookup (attributes : List ProductAttribute)
    (hids : (attributes.map (fun a => a.id)).Nodup) :
    ∀ attr ∈ attributes,
      lookupEnc (seedMaps attributes) attr.id = seedOptions (attr.options.getD []) := by
  unfold seedMaps
  have hgen : ∀ (l : List ProductAttribute) (st : EncState),
      (l.map (fun a => a.id)).Nodup →
      ∀ attr ∈ l,
        lookupEnc (l.foldl
            (fun st attr => mapSet st attr.id (seedOptions (attr.options.getD []))) st) attr.id
          = seedOptions (attr.options.getD []) := by
    intro l
    induction l with
    | nil =>
      intro st _ attr h
      exact absurd h (by simp)
    | cons a rest ih =>
      intro st hnodup attr hattr
      simp only [List.map_cons, List.nodup_cons] at hnodup
      dsimp only [List.foldl_cons]
      rcases List.mem_cons.mp hattr with rfl | hmem
      · rw [seedMaps_untouched rest _ attr.id hnodup.1, lookupEnc_mapSet_self]
      · exact ih _ hnodup.2 attr hmem
  exact hgen attributes [] hids

/-! ## C5: injectivity of the literal-to-code mapping -/

/-- The C5 instance: one string attribute whose two declared options carry
the same literal value `"x"`. -/
def c5DupAttrs : List ProductAttribute :=
  [{ id := "A", name := "A", type := .string,
     options := some [⟨"l1", .scalar (.str "x")⟩, ⟨"l2", .scalar (.str "x")⟩] }]

/-- The C5 configuration: `A` set to the fresh literal `"y"`. -/
def c5Config : Configuration := [("A", Val.scalar (.str "y"))]

/-- C5 as stated is false: with duplicate declared option values the
pre-seeding pass leaves the counter ahead of the key count (`"x"` ends at
code 2 with one key), so the next fresh literal `"y"` also receives code
`1 + 1 = 2`: two distinct literals of a non-numeric attribute share a
code, and the pre-seeded codes are not `1..N`. -/
theorem claim_C5_counterexample :
    lookupEnc (encStateAfterCall c5DupAttrs [] c5Config) "A" = [("x", 2), ("y", 2)] ∧
      ("x" : String) ≠ "y" ∧
      mapFind (lookupEnc (encStateAfterCall c5DupAttrs [] c5Config) "A") "x" = some 2 ∧
      mapFind (lookupEnc (encStateAfterCall c5DupAttrs [] c5Config) "A") "y" = some 2 := by
  refine ⟨by decide, by decide, by decide, by decide⟩

/-- C5 amended: *provided each attribute's declared options have pairwise
distinct string forms and attribute ids are unique*, the mapping is as
claimed: pre-seeding assigns each attribute's option strings the codes
`1..N` in declaration order, and at the end of any call every attribute's
literal-to-code map has distinct literals, distinct codes, and only
positive codes — each fresh literal got a code not already in use. -/
theorem claim_C5_injective_coding (attributes : List ProductAttribute) (rules : List Rule)
    (config : Configuration)
    (hopts : ∀ attr ∈ attributes,
      ((attr.options.getD []).map (fun o => valToString o.value)).Nodup)
    (hids : (attributes.map (fun a => a.id)).Nodup) :
    (∀ attr ∈ attributes,
        (lookupEnc (seedMaps attributes) attr.id).map Prod.fst
            = (attr.options.getD []).map (fun o => valToString o.value) ∧
          (lookupEnc (seedMaps attributes) attr.id).map Prod.snd
            = rangeCodes (attr.options.getD []).length) ∧
      ∀ a, injectiveCoding (lookupEnc (encStateAfterCall attributes rules config) a) := by
  constructor
  · intro attr hattr
    have hl := seedMaps_lookup attributes hids attr hattr
    have hsp := seedOptions_spec (attr.options.getD []) (hopts attr hattr)
    refine ⟨by rw [hl]; exact hsp.2, ?_⟩
    rw [hl, hsp.1.2]
    have hlen : (seedOptions (attr.options.getD [])).length
        = (attr.options.getD []).length := by
      have := congrArg List.length hsp.2
      simpa using this
    rw [hlen]
  · intro a
    have h0 := seedMaps_good attributes hopts
    have h1 := (translateRules_preserves attributes rules (seedMaps attributes) h0).1
    have h2 := (configAssertions_preserves attributes config _ h1).1
    exact injectiveCoding_of_goodMap (h2 a)

/-- The amended-C5 witness instance: one attribute with two distinct
option strings. -/
def c5WitAttrs : List ProductAttribute :=
  [{ id := "A", name := "A", type := .string,
     options := some [⟨"la", .scalar (.str "a")⟩, ⟨"lb", .scalar (.str "b")⟩] }]

/-- The amended-C5 witness configuration: `A` set to a fresh literal. -/
def c5WitConfig : Configuration := [("A", Val.scalar (.str "c"))]

/-- Witness for the amended C5 at a concrete input: two distinct declared
options and a fresh configuration literal; the hypotheses hold and the
theorem applies. -/
theorem claim_C5_injective_coding_witness :
    (∀ attr ∈ c5WitAttrs,
      ((attr.options.getD []).map (fun o => valToString o.value)).Nodup) ∧
    ((∀ attr ∈ c5WitAttrs,
        (lookupEnc (seedMaps c5WitAttrs) attr.id).map Prod.fst
            = (attr.options.getD []).map (fun o => valToString o.value) ∧
          (lookupEnc (seedMaps c5WitAttrs) attr.id).map Prod.snd
            = rangeCodes (attr.options.getD []).length) ∧
      ∀ a, injectiveCoding (lookupEnc (encStateAfterCall c5WitAttrs [] c5WitConfig) a)) := by
  have h := claim_C5_injective_coding c5WitAttrs [] c5WitConfig (by decide) (by decide)
  exact ⟨by decide, h.1, h.2⟩

/-! ## Cross-engine agreement: hypotheses and basic lemmas -/

/-- Every attribute of the schema is non-numeric (categorical in the sense
of the SAT encoding). -/
def allCategorical (attributes : List ProductAttribute) : Prop :=
  ∀ attr ∈ attributes, attr.type ≠ AttrType.number

/-- `getCode` takes the categorical path for this attribute id. -/
def isCategorical (attributes : List ProductAttribute) (attrId : String) : Prop :=
  ∀ attr, attributes.find? (fun a => a.id == attrId) = some attr →
    attr.type ≠ AttrType.number

theorem isCategorical_of_all {attributes : List ProductAttribute}
    (h : allCategorical attributes) (a : String) : isCategorical attributes a :=
  fun attr hf => h attr (List.mem_of_find?_eq_some hf)

/-- The configuration shape of the agreement claim: distinct keys, every
value a non-empty string literal. -/
def stringConfig (config : Configuration) : Prop :=
  (config.map Prod.fst).Nodup ∧
    ∀ p ∈ config, ∃ s, p.2 = Val.scalar (.str s) ∧ s ≠ ""

/-- A condition in the agreement fragment: its attribute is categorical
and set in the configuration, and it is a string-literal equality,
inequality, or membership in a nonempty string list. -/
def wfCondition (attributes : List ProductAttribute) (config : Configuration)
    (c : RuleCondition) : Prop :=
  isCategorical attributes c.attr ∧ c.attr ∈ config.map Prod.fst ∧
    ((c.op = "==" ∧ ∃ s, c.value = Val.scalar (.str s)) ∨
      (c.op = "!=" ∧ ∃ s, c.value = Val.scalar (.str s)) ∨
      (c.op = "in" ∧ ∃ vs, c.value = Val.arr vs ∧ vs ≠ [] ∧
        ∀ v ∈ vs, ∃ s, v = Scalar.str s))

/-- A rule in the agreement fragment: well-formed condition, and a
well-formed consequence whenever the rule is an implication that has
one. -/
def wfRule (attributes : List ProductAttribute) (config : Configuration) (r : Rule) : Prop :=
  wfCondition attributes config r.condition ∧
    (r.type = RuleType.implication →
      ∀ cons, r.consequence = some cons → wfCondition attributes config cons)

/-- An assignment agrees with a final encoder state on a configuration:
each entry's value is coded and the assignment gives its variable that
code.  This is what the assumption conjunction pins down. -/
def configMatches (config : Configuration) (stF : EncState) (σ : String → Int) : Prop :=
  ∀ p ∈ config, ∃ c, mapFind (lookupEnc stF p.1) (valToString p.2) = some c ∧ σ p.1 = c

/-- A found code is among the map's values. -/
theorem mapFind_some_mem_values {m : CodeMap} {s : String} {c : Int}
    (h : mapFind m s = some c) : c ∈ m.map Prod.snd := by
  induction m with
  | nil => simp [mapFind] at h
  | cons p rest ih =>
    simp only [mapFind] at h
    by_cases hp : p.1 = s
    · simp only [hp, beq_self_eq_true, if_true, Option.some.injEq] at h
      simp [← h]
    · simp only [beq_iff_eq, hp, if_false] at h
      simp [ih h]

/-- With pairwise-distinct codes, the literal of a code is unique. -/
theorem mapFind_inj {m : CodeMap} (hnd : (m.map Prod.snd).Nodup) {s1 s2 : String} {c : Int}
    (h1 : mapFind m s1 = some c) (h2 : mapFind m s2 = some c) : s1 = s2 := by
  induction m with
  | nil => simp [mapFind] at h1
  | cons p rest ih =>
    simp only [List.map_cons, List.nodup_cons] at hnd
    simp only [mapFind, beq_iff_eq] at h1 h2
    by_cases hp1 : p.1 = s1
    · by_cases hp2 : p.1 = s2
      · rw [← hp1, hp2]
      · simp only [hp1, if_true, Option.some.injEq] at h1
        simp only [hp2, if_false] at h2
        exact absurd (by rw [h1]; exact mapFind_some_mem_values h2) hnd.1
    · by_cases hp2 : p.1 = s2
      · simp only [hp1, if_false] at h1
        simp only [hp2, if_true, Option.some.injEq] at h2
        exact absurd (by rw [h2]; exact mapFind_some_mem_values h1) hnd.1
      · simp only [hp1, if_false] at h1
        simp only [hp2, if_false] at h2
        exact ih hnd.2 h1 h2

/-- Reading an entry of a duplicate-free configuration. -/
theorem lookupConfig_of_nodup {config : Configuration}
    (h : (config.map Prod.fst).Nodup) {p : String × Val} (hp : p ∈ config) :
    lookupConfig config p.1 = p.2 := by
  induction config with
  | nil => exact absurd hp (by simp)
  | cons q rest ih =>
    simp only [List.map_cons, List.nodup_cons] at h
    rcases List.mem_cons.mp hp with rfl | hmem
    · simp [lookupConfig, List.find?_cons_of_pos]
    · have hne : q.1 ≠ p.1 := by
        intro he
        exact h.1 (he ▸ List.mem_map_of_mem Prod.fst hmem)
      have : lookupConfig (q :: rest) p.1 = lookupConfig rest p.1 := by
        simp only [lookupConfig]
        rw [List.find?_cons_of_neg _ (by simp [hne])]
      rw [this]
      exact ih h.2 hmem

/-- On a categorical attribute `getCode` always succeeds, binds the
literal's string in the resulting state, and preserves the invariant. -/
theorem getCode_cat_spec (attributes : List ProductAttribute) (st : EncState)
    (attrId : String) (val : Val) (hcat : isCategorical attributes attrId)
    (hgood : goodSt st) :
    ∃ c st', getCode attributes st attrId val = (.ok c, st') ∧
      mapFind (lookupEnc st' attrId) (valToString val) = some c ∧
      goodSt st' ∧ stExtends st st' := by
  have he : getCode attributes st attrId val = getCodeCat st attrId (valToString val) := by
    unfold getCode
    cases hf : attributes.find? (fun a => a.id == attrId) with
    | none => rfl
    | some attr =>
      dsimp only
      rw [if_neg (hcat attr hf)]
  obtain ⟨c, st', hq, hbind⟩ := getCodeCat_codes st attrId (valToString val)
  have hp := getCodeCat_preserves st attrId (valToString val) hgood
  rw [hq] at hp
  simp only at hp
  exact ⟨c, st', he ▸ hq, hbind, hp.1, hp.2⟩

/-- Deterministic `==` on two string literals is string equality. -/
theorem evaluateCondition_eq_str (sa sv : String) :
    evaluateCondition (.scalar (.str sa)) "==" (.scalar (.str sv)) = true ↔ sa = sv := by
  show (sa == sv) = true ↔ sa = sv
  exact beq_iff_eq

/-- Deterministic `!=` on two string literals is string inequality. -/
theorem evaluateCondition_ne_str (sa sv : String) :
    evaluateCondition (.scalar (.str sa)) "!=" (.scalar (.str sv)) = true ↔ ¬ sa = sv := by
  show (!(sa == sv)) = true ↔ ¬ sa = sv
  simp

/-- Deterministic `in` of a string literal in a scalar list is strict
membership. -/
theorem evaluateCondition_in_str (sa : String) (vs : List Scalar) :
    evaluateCondition (.scalar (.str sa)) "in" (.arr vs) = true ↔
      ∃ v ∈ vs, v = Scalar.str sa := by
  show (vs.any (fun t => t == Scalar.str sa)) = true ↔ _
  simp [List.any_eq_true]

/-- The element loop of the `in` translation on a categorical attribute:
it succeeds, appends one code per element, and binds each element's
string to its code. -/
theorem inCodes_sem (attributes : List ProductAttribute) (attrId : String)
    (hcat : isCategorical attributes attrId) :
    ∀ (vs : List Scalar) (st : EncState) (acc : List Int), goodSt st →
    ∃ ns st', inCodes attributes st attrId vs acc = (.ok (.inOr attrId (acc ++ ns)), st') ∧
      goodSt st' ∧ stExtends st st' ∧
      List.Forall₂ (fun (v : Scalar) (n : Int) =>
        mapFind (lookupEnc st' attrId) (scalarToString v) = some n) vs ns := by
  intro vs
  induction vs with
  | nil =>
    intro st acc h
    exact ⟨[], st, by simp [inCodes], h, stExtends_refl st, List.Forall₂.nil⟩
  | cons v rest ih =>
    intro st acc h
    obtain ⟨c, st1, hq, hbind, hgood1, hext1⟩ :=
      getCode_cat_spec attributes st attrId (.scalar v) hcat h
    obtain ⟨ns, st', hq2, hgood', hext', hf⟩ := ih st1 (acc ++ [c]) hgood1
    refine ⟨c :: ns, st', ?_, hgood', stExtends_trans hext1 hext', ?_⟩
    · simp only [inCodes, hq, hq2]
      simp [List.append_assoc]
    · refine List.Forall₂.cons ?_ hf
      exact hext' _ _ _ (by simpa [valToString] using hbind)

/-- Under the final state's injective coding, a disjunction of element
codes is satisfied exactly when the configured literal is among the
elements (as strings). -/
theorem forall2_codes_iff {stF : EncState} {attrId : String} {σ : String → Int}
    (hgoodF : goodSt stF) {sa : String} {ca : Int}
    (hbindF : mapFind (lookupEnc stF attrId) sa = some ca) (hσ : σ attrId = ca) :
    ∀ {vs : List Scalar} {ns : List Int},
      List.Forall₂ (fun v n => mapFind (lookupEnc stF attrId) (scalarToString v) = some n)
        vs ns →
      ((∃ n ∈ ns, σ attrId = n) ↔ ∃ v ∈ vs, scalarToString v = sa) := by
  intro vs ns hf
  induction hf with
  | nil => simp
  | @cons v n vs' ns' hpair hrest ih =>
    constructor
    · rintro ⟨m, hm, hσm⟩
      rcases List.mem_cons.mp hm with rfl | hm'
      · refine ⟨v, by simp, ?_⟩
        have hca : ca = m := by rw [← hσ, hσm]
        exact (mapFind_inj (goodMap_values_nodup (hgoodF attrId)) (hca ▸ hbindF) hpair).symm
      · obtain ⟨v', hv', hs⟩ := ih.mp ⟨m, hm', hσm⟩
        exact ⟨v', by simp [hv'], hs⟩
    · rintro ⟨v', hv', hs⟩
      rcases List.mem_cons.mp hv' with rfl | hm'
      · refine ⟨n, by simp, ?_⟩
        have h1 : mapFind (lookupEnc stF attrId) sa = some n := by
          rw [hs] at hpair
          exact hpair
        rw [hσ, Option.some.inj (hbindF.symm.trans h1)]
      · obtain ⟨m, hm, hσm⟩ := ih.mpr ⟨v', hm', hs⟩
        exact ⟨m, by simp [hm], hσm⟩

/-- Under injective coding, the configured variable equals an encoded
literal's code exactly when the configured string is that literal. -/
theorem code_eq_iff {stF : EncState} {attrId : String} {σ : String → Int}
    {sa : String} {ca : Int} {sv : String} {cv : Int}
    (hgoodF : goodSt stF)
    (hbindF : mapFind (lookupEnc stF attrId) sa = some ca) (hσ : σ attrId = ca)
    (hbindv : mapFind (lookupEnc stF attrId) sv = some cv) :
    σ attrId = cv ↔ sa = sv := by
  constructor
  · intro h
    have hca : ca = cv := by rw [← hσ, h]
    rw [hca] at hbindF
    exact mapFind_inj (goodMap_values_nodup (hgoodF attrId)) hbindF hbindv
  · intro h
    rw [h] at hbindF
    rw [hσ, Option.some.inj (hbindF.symm.trans hbindv)]

/-- Translation of a well-formed condition from a well-formed state: it
succeeds, preserves the invariant, and in any well-formed final extension
its truth under an assignment matching the configuration coincides with
the deterministic evaluation of the same condition. -/
theorem getZ3Expr_sem (attributes : List ProductAttribute) (config : Configuration)
    (st : EncState) (c : RuleCondition)
    (hgood : goodSt st) (hwf : wfCondition attributes config c)
    (hcfg : stringConfig config) :
    ∃ e st',
      getZ3Expr attributes st c.attr c.op c.value = (.ok e, st') ∧
        goodSt st' ∧ stExtends st st' ∧
        ∀ (stF : EncState) (σ : String → Int), goodSt stF → stExtends st' stF →
          configMatches config stF σ →
          (Z3Cond.holds σ e ↔
            evaluateCondition (lookupConfig config c.attr) c.op c.value = true) := by
  obtain ⟨hcat, hmem, hshape⟩ := hwf
  obtain ⟨p, hp, hpk⟩ : ∃ p ∈ config, p.1 = c.attr := by
    simpa [List.mem_map] using hmem
  obtain ⟨sa, hpv, _hsa⟩ := hcfg.2 p hp
  have hlook : lookupConfig config c.attr = Val.scalar (.str sa) := by
    rw [← hpk, lookupConfig_of_nodup hcfg.1 hp, hpv]
  rcases hshape with ⟨hop, sv, hval⟩ | ⟨hop, sv, hval⟩ | ⟨hop, vs, hval, _hne, hstr⟩
  · -- "==" on a string literal
    obtain ⟨cv, st', hq, hbind, hgood', hext⟩ :=
      getCode_cat_spec attributes st c.attr c.value hcat hgood
    rw [hval] at hbind
    simp only [valToString, scalarToString] at hbind
    refine ⟨.eq c.attr cv, st', ?_, hgood', hext, ?_⟩
    · unfold getZ3Expr
      rw [hq, hop]
      rfl
    · intro stF σ hgoodF hextF hmatch
      obtain ⟨ca, hbindF, hσ⟩ := hmatch p hp
      rw [hpk] at hbindF hσ
      rw [hpv] at hbindF
      simp only [valToString, scalarToString] at hbindF
      have hbindv : mapFind (lookupEnc stF c.attr) sv = some cv := hextF _ _ _ hbind
      rw [hlook, hop, hval, evaluateCondition_eq_str]
      exact code_eq_iff hgoodF hbindF hσ hbindv
  · -- "!=" on a string literal
    obtain ⟨cv, st', hq, hbind, hgood', hext⟩ :=
      getCode_cat_spec attributes st c.attr c.value hcat hgood
    rw [hval] at hbind
    simp only [valToString, scalarToString] at hbind
    refine ⟨.ne c.attr cv, st', ?_, hgood', hext, ?_⟩
    · unfold getZ3Expr
      rw [hq, hop]
      rfl
    · intro stF σ hgoodF hextF hmatch
      obtain ⟨ca, hbindF, hσ⟩ := hmatch p hp
      rw [hpk] at hbindF hσ
      rw [hpv] at hbindF
      simp only [valToString, scalarToString] at hbindF
      have hbindv : mapFind (lookupEnc stF c.attr) sv = some cv := hextF _ _ _ hbind
      rw [hlook, hop, hval, evaluateCondition_ne_str]
      exact not_congr (code_eq_iff hgoodF hbindF hσ hbindv)
  · -- "in" on a nonempty list of string literals
    obtain ⟨c0, st1, hq0, _hbind0, hgood1, hext1⟩ :=
      getCode_cat_spec attributes st c.attr c.value hcat hgood
    obtain ⟨ns, st', hq2, hgood', hext', hf⟩ :=
      inCodes_sem attributes c.attr hcat vs st1 [] hgood1
    simp only [List.nil_append] at hq2
    refine ⟨.inOr c.attr ns, st', ?_, hgood', stExtends_trans hext1 hext', ?_⟩
    · unfold getZ3Expr
      rw [hq0, hop, hval]
      exact hq2
    · intro stF σ hgoodF hextF hmatch
      obtain ⟨ca, hbindF, hσ⟩ := hmatch p hp
      rw [hpk] at hbindF hσ
      rw [hpv] at hbindF
      simp only [valToString, scalarToString] at hbindF
      have hfF : List.Forall₂
          (fun v n => mapFind (lookupEnc stF c.attr) (scalarToString v) = some n) vs ns :=
        hf.imp (fun a b hb => hextF _ _ _ hb)
      have hiff := forall2_codes_iff hgoodF hbindF hσ hfF
      have hconv : (∃ v ∈ vs, scalarToString v = sa) ↔ (∃ v ∈ vs, v = Scalar.str sa) := by
        constructor
        · rintro ⟨v, hv, hsv⟩
          obtain ⟨s, rfl⟩ := hstr v hv
          simp only [scalarToString] at hsv
          exact ⟨Scalar.str s, hv, by rw [hsv]⟩
        · rintro ⟨v, hv, rfl⟩
          exact ⟨Scalar.str sa, hv, rfl⟩
      rw [hlook, hop, hval, evaluateCondition_in_str]
      exact (hiff.trans hconv)

/-- Translation of one approved well-formed rule: the constraint produced
(exclusion, implication, or none for a consequence-less implication) holds
under a matching assignment exactly when the deterministic rule pass emits
no violation for the rule. -/
theorem translateRule_sem (attributes : List ProductAttribute) (config : Configuration)
    (st : EncState) (rule : Rule)
    (hgood : goodSt st) (hwf : wfRule attributes config rule) (hcfg : stringConfig config) :
    ∃ cs f st',
      translateRule attributes st rule = (cs, f, st') ∧ goodSt st' ∧ stExtends st st' ∧
        ∀ (stF : EncState) (σ : String → Int), goodSt stF → stExtends st' stF →
          configMatches config stF σ →
          ((∀ e ∈ cs, Z3Expr.holds σ e) ↔ ruleViolation config rule = none) := by
  obtain ⟨e1, st1, hq1, hgood1, hext1, hsem1⟩ :=
    getZ3Expr_sem attributes config st rule.condition hgood hwf.1 hcfg
  cases htype : rule.type with
  | exclusion =>
    refine ⟨[.notE e1], 0, st1, ?_, hgood1, hext1, ?_⟩
    · unfold translateRule
      rw [hq1]
      dsimp only
      rw [htype]
    · intro stF σ hgoodF hextF hmatch
      have h1 := hsem1 stF σ hgoodF hextF hmatch
      have hL : (∀ e ∈ [Z3Expr.notE e1], Z3Expr.holds σ e) ↔
          ¬ (evaluateCondition (lookupConfig config rule.condition.attr)
              rule.condition.op rule.condition.value = true) := by
        simp [Z3Expr.holds, h1]
      rw [hL]
      simp only [ruleViolation, htype]
      cases hev : evaluateCondition (lookupConfig config rule.condition.attr)
          rule.condition.op rule.condition.value <;> simp [hev]
  | implication =>
    cases hcons : rule.consequence with
    | none =>
      refine ⟨[], 1, st1, ?_, hgood1, hext1, ?_⟩
      · unfold translateRule
        rw [hq1]
        dsimp only
        rw [htype]
        dsimp only
        rw [hcons]
      · intro stF σ hgoodF hextF hmatch
        simp [ruleViolation, htype, hcons]
    | some cons =>
      have hwfc := hwf.2 htype cons hcons
      obtain ⟨e2, st2, hq2, hgood2, hext2, hsem2⟩ :=
        getZ3Expr_sem attributes config st1 cons hgood1 hwfc hcfg
      refine ⟨[.implies e1 e2], 0, st2, ?_, hgood2, stExtends_trans hext1 hext2, ?_⟩
      · unfold translateRule
        rw [hq1]
        dsimp only
        rw [htype]
        dsimp only
        rw [hcons]
        dsimp only
        rw [hq2]
      · intro stF σ hgoodF hextF hmatch
        have h1 := hsem1 stF σ hgoodF (stExtends_trans hext2 hextF) hmatch
        have h2 := hsem2 stF σ hgoodF hextF hmatch
        have hL : (∀ e ∈ [Z3Expr.implies e1 e2], Z3Expr.holds σ e) ↔
            (Z3Cond.holds σ e1 → Z3Cond.holds σ e2) := by
          simp [Z3Expr.holds]
        rw [hL, h1, h2]
        simp only [ruleViolation, htype, hcons]
        cases hev1 : evaluateCondition (lookupConfig config rule.condition.attr)
            rule.condition.op rule.condition.value <;>
          cases hev2 : evaluateCondition (lookupConfig config cons.attr)
              cons.op cons.value <;> simp [hev1, hev2]

/-- Translation of a rule list: the produced constraint set holds under a
matching assignment exactly when no approved rule is deterministically
violated. -/
theorem translateRules_sem (attributes : List ProductAttribute) (config : Configuration)
    (hcfg : stringConfig config) :
    ∀ (rules : List Rule),
      (∀ r ∈ rules, r.approved = true → wfRule attributes config r) →
      ∀ st, goodSt st →
      ∃ cs f st', translateRules attributes st rules = (cs, f, st') ∧ goodSt st' ∧
        stExtends st st' ∧
        ∀ (stF : EncState) (σ : String → Int), goodSt stF → stExtends st' stF →
          configMatches config stF σ →
          ((∀ e ∈ cs, Z3Expr.holds σ e) ↔
            ∀ r ∈ rules, r.approved = true → ruleViolation config r = none) := by
  intro rules
  induction rules with
  | nil =>
    intro _ st h
    exact ⟨[], 0, st, rfl, h, stExtends_refl st, by simp⟩
  | cons r rest ih =>
    intro hwf st h
    by_cases ha : r.approved
    · obtain ⟨cs1, f1, st1, hq1, hgood1, hext1, hsem1⟩ :=
        translateRule_sem attributes config st r h (hwf r (by simp) ha) hcfg
      obtain ⟨cs2, f2, st2, hq2, hgood2, hext2, hsem2⟩ :=
        ih (fun r' hr' => hwf r' (by simp [hr'])) st1 hgood1
      refine ⟨cs1 ++ cs2, f1 + f2, st2, ?_, hgood2, stExtends_trans hext1 hext2, ?_⟩
      · simp only [translateRules, ha, if_true, hq1, hq2]
      · intro stF σ hgoodF hextF hmatch
        have h1 := hsem1 stF σ hgoodF (stExtends_trans hext2 hextF) hmatch
        have h2 := hsem2 stF σ hgoodF hextF hmatch
        constructor
        · intro hall r' hr' ha'
          rcases List.mem_cons.mp hr' with rfl | hmem
          · exact h1.mp (fun e he => hall e (by simp [he]))
          · exact h2.mp (fun e he => hall e (by simp [he])) r' hmem ha'
        · intro hall e he
          rcases List.mem_append.mp he with he1 | he2
          · exact h1.mpr (hall r (by simp) ha) e he1
          · exact h2.mpr (fun r' hr' => hall r' (by simp [hr'])) e he2
    · obtain ⟨cs, f, st', hq, hgood', hext', hsem⟩ :=
        ih (fun r' hr' => hwf r' (by simp [hr'])) st h
      refine ⟨cs, f, st', ?_, hgood', hext', ?_⟩
      · simp only [translateRules, ha, Bool.false_eq_true, if_false, hq]
      · intro stF σ hgoodF hextF hmatch
        rw [hsem stF σ hgoodF hextF hmatch]
        constructor
        · intro hall r' hr' ha'
          rcases List.mem_cons.mp hr' with rfl | hmem
          · exact absurd ha' ha
          · exact hall r' hmem ha'
        · intro hall r' hr' ha'
          exact hall r' (by simp [hr']) ha'

/-- The configuration assertion loop on an all-categorical schema with
non-empty string values: it succeeds, every assertion is an equality
backed by an entry, and every entry is asserted with its code. -/
theorem configAssertions_sem (attributes : List ProductAttribute)
    (hcat : allCategorical attributes) :
    ∀ (config : Configuration),
      (∀ p ∈ config, ∃ s, p.2 = Val.scalar (.str s) ∧ s ≠ "") →
      ∀ st, goodSt st →
      ∃ A stF, configAssertions attributes st config = (.ok A, stF) ∧ goodSt stF ∧
        stExtends st stF ∧
        (∀ e ∈ A, ∃ k c, e = Z3Expr.atom (.eq k c) ∧ ∃ p ∈ config, p.1 = k ∧
            mapFind (lookupEnc stF k) (valToString p.2) = some c) ∧
        (∀ p ∈ config, ∃ c, Z3Expr.atom (.eq p.1 c) ∈ A ∧
            mapFind (lookupEnc stF p.1) (valToString p.2) = some c) := by
  intro config
  induction config with
  | nil =>
    intro _ st h
    exact ⟨[], st, rfl, h, stExtends_refl st, by simp, by simp⟩
  | cons p rest ih =>
    rcases p with ⟨k, v⟩
    intro hstr st h
    obtain ⟨s, hv, hs⟩ := hstr (k, v) (by simp)
    simp only at hv
    have hskip : ¬ (v = Val.scalar .undefined ∨ v = Val.scalar (.str "")) := by
      rw [hv]
      simp [hs]
    obtain ⟨c, st1, hq, hbind, hgood1, hext1⟩ :=
      getCode_cat_spec attributes st k v (isCategorical_of_all hcat k) h
    obtain ⟨A, stF, hq2, hgoodF, hext2, hback, hall⟩ :=
      ih (fun q hqm => hstr q (by simp [hqm])) st1 hgood1
    refine ⟨Z3Expr.atom (.eq k c) :: A, stF, ?_, hgoodF,
      stExtends_trans hext1 hext2, ?_, ?_⟩
    · simp only [configAssertions, hskip, if_false, hq, hq2]
    · intro e he
      rcases List.mem_cons.mp he with rfl | hmem
      · exact ⟨k, c, rfl, (k, v), by simp, rfl, hext2 _ _ _ hbind⟩
      · obtain ⟨k', c', heq, p', hp', hk', hbind'⟩ := hback e hmem
        exact ⟨k', c', heq, p', by simp [hp'], hk', hbind'⟩
    · intro q hqmem
      rcases List.mem_cons.mp hqmem with rfl | hmem
      · exact ⟨c, by simp, hext2 _ _ _ hbind⟩
      · obtain ⟨c', hmem', hbind'⟩ := hall q hmem
        exact ⟨c', by simp [hmem'], hbind'⟩

/-- A fully-specified non-empty string configuration passes the schema
pass with no violations. -/
theorem schemaViolations_nil (attributes : List ProductAttribute) (config : Configuration)
    (H2 : ∀ attr ∈ attributes, attr.id ∈ config.map Prod.fst)
    (H3 : stringConfig config) :
    schemaViolations config attributes = [] := by
  unfold schemaViolations
  rw [List.filterMap_eq_nil_iff]
  intro attr hattr
  obtain ⟨p, hp, hpk⟩ : ∃ p ∈ config, p.1 = attr.id := by
    simpa [List.mem_map] using H2 attr hattr
  obtain ⟨s, hv, hs⟩ := H3.2 p hp
  have hlook : lookupConfig config attr.id = Val.scalar (.str s) := by
    rw [← hpk, lookupConfig_of_nodup H3.1 hp, hv]
  rw [if_neg]
  rintro ⟨_, hempty⟩
  rw [hlook] at hempty
  simp [isEmptyVal, hs] at hempty

/-- Unfolding of the deterministic validity flag. -/
theorem validateDeterministic_isValid (config : Configuration) (rules : List Rule)
    (attributes : List ProductAttribute) :
    (validateDeterministic config rules attributes).isValid
      = (schemaViolations config attributes ++ rules.filterMap (fun rule =>
          if rule.approved then ruleViolation config rule else none)).isEmpty := rfl

/-- With an empty schema pass, deterministic validity is exactly: no
approved rule is violated. -/
theorem det_valid_iff (config : Configuration) (rules : List Rule)
    (attributes : List ProductAttribute)
    (hschema : schemaViolations config attributes = []) :
    ((validateDeterministic config rules attributes).isValid = true ↔
      ∀ r ∈ rules, r.approved = true → ruleViolation config r = none) := by
  rw [validateDeterministic_isValid, hschema, List.nil_append]
  rw [List.isEmpty_iff, List.filterMap_eq_nil_iff]
  constructor
  · intro h r hr ha
    have := h r hr
    rw [if_pos ha] at this
    exact this
  · intro h r hr
    by_cases ha : r.approved
    · rw [if_pos ha]
      exact h r hr ha
    · rw [if_neg ha]

/-- The heart of the agreement claim: under the amended hypotheses the
assumption list is produced and deterministic validity coincides with
satisfiability of the translated constraints under those assumptions. -/
theorem det_valid_iff_sat (attributes : List ProductAttribute) (rules : List Rule)
    (config : Configuration)
    (H1 : allCategorical attributes)
    (H5 : ∀ attr ∈ attributes,
      ((attr.options.getD []).map (fun o => valToString o.value)).Nodup)
    (H2 : ∀ attr ∈ attributes, attr.id ∈ config.map Prod.fst)
    (H3 : stringConfig config)
    (H4 : ∀ r ∈ rules, r.approved = true → wfRule attributes config r) :
    ∃ A, z3Assumptions attributes rules config = .ok A ∧
      ((validateDeterministic config rules attributes).isValid = true ↔
        satisfiable (z3Constraints attributes rules) A) := by
  have hseed := seedMaps_good attributes H5
  obtain ⟨cs, f, st1, htr, hgood1, hext1, hsem⟩ :=
    translateRules_sem attributes config H3 rules H4 (seedMaps attributes) hseed
  obtain ⟨A, stF, hca, hgoodF, hextF, hback, hall⟩ :=
    configAssertions_sem attributes H1 config H3.2 st1 hgood1
  have hzc : z3Constraints attributes rules = cs := by
    unfold z3Constraints
    rw [htr]
  have hzs : stateAfterRules attributes rules = st1 := by
    unfold stateAfterRules
    rw [htr]
  refine ⟨A, ?_, ?_⟩
  · unfold z3Assumptions
    rw [hzs, hca]
  · rw [det_valid_iff config rules attributes (schemaViolations_nil attributes config H2 H3),
      hzc]
    have hmatch0 : configMatches config stF
        (fun a => (mapFind (lookupEnc stF a) (valToString (lookupConfig config a))).getD 0) := by
      intro p hp
      obtain ⟨c, _, hbind⟩ := hall p hp
      refine ⟨c, hbind, ?_⟩
      have hlook : lookupConfig config p.1 = p.2 := lookupConfig_of_nodup H3.1 hp
      simp [hlook, hbind]
    constructor
    · intro hv
      refine ⟨fun a => (mapFind (lookupEnc stF a) (valToString (lookupConfig config a))).getD 0,
        ?_, ?_⟩
      · exact (hsem stF _ hgoodF hextF hmatch0).mpr hv
      · intro e he
        obtain ⟨k, c, rfl, p, hp, hpk, hbind⟩ := hback e he
        have hlook : lookupConfig config k = p.2 := by
          rw [← hpk]
          exact lookupConfig_of_nodup H3.1 hp
        show (mapFind (lookupEnc stF k) (valToString (lookupConfig config k))).getD 0 = c
        simp [hlook, hbind]
    · rintro ⟨σ, hc, ha⟩
      have hmatch : configMatches config stF σ := by
        intro p hp
        obtain ⟨c, hmem, hbind⟩ := hall p hp
        exact ⟨c, hbind, ha _ hmem⟩
      exact (hsem stF σ hgoodF hextF hmatch).mp hc

/-- Computation of one non-busy `validateZ3` call in terms of its
environment: when nothing raises, the result is decided by the check
outcome. -/
theorem validateZ3_result_of_check (env : Z3Env) (config : Configuration) (rules : List Rule)
    (attributes : List ProductAttribute) (A : List Z3Expr) (out : SolverOutcome)
    (hinit : env.initFails = false)
    (hA : z3Assumptions attributes rules config = .ok A)
    (hcheck : env.check (z3Constraints attributes rules) A = .ok out) :
    (validateZ3 env false config rules attributes).result
      = .ok (if out = SolverOutcome.unsat then
          { isValid := false, violations := [unsatViolation config] }
        else { isValid := true, violations := [] }) := by
  have hres : (validateZ3 env false config rules attributes).result
      = runBody env config rules attributes := rfl
  rw [hres]
  unfold runBody
  rw [hinit]
  simp only [Bool.false_eq_true, if_false]
  unfold z3Assumptions at hA
  rcases hconf : configAssertions attributes (stateAfterRules attributes rules) config
    with ⟨r, st2⟩
  rw [hconf] at hA
  simp only at hA
  subst hA
  dsimp only
  rw [hcheck]
  cases out <;> rfl

/-! ## C1: cross-engine agreement -/

/-- The C1 counterexample schema: one categorical (string) attribute with
the finite domain `{"a", "b"}`. -/
def c1CexAttrs : List ProductAttribute :=
  [{ id := "A", name := "A", type := .string,
     options := some [⟨"a", .scalar (.str "a")⟩, ⟨"b", .scalar (.str "b")⟩] }]

/-- The C1 counterexample rule: an approved exclusion using the supported
ordering operator `>` on the categorical attribute. -/
def c1CexRules : List Rule :=
  [{ id := "r-gt", natural_text := "A must not exceed a", type := .exclusion,
     condition := { attr := "A", op := ">", value := .scalar (.str "a") },
     approved := true }]

/-- The C1 counterexample configuration: fully specified with the declared
option value `"b"`. -/
def c1CexConfig : Configuration := [("A", Val.scalar (.str "b"))]

/-- An environment whose solver answers `unsat` — correctly on this
instance, as the final conjunct of the counterexample proves. -/
def c1CexEnv : Z3Env := { initFails := false, check := fun _ _ => .ok .unsat }

/-- C1 as stated is false: on a rule set over a finite-domain categorical
attribute, using only operators from the supported set (here `>`), and a
fully-specified configuration drawn from the declared options, the
deterministic evaluator says *valid* (string operands coerce to `NaN`, so
`"b" > "a"` is false) while the SAT path says *invalid* (the codes 2 > 1
make the exclusion fire, the formula really is unsatisfiable, and the
solver's `unsat` answer is correct). -/
theorem claim_C1_counterexample :
    allCategorical c1CexAttrs ∧
      (validateDeterministic c1CexConfig c1CexRules c1CexAttrs).isValid = true ∧
      (validateZ3 c1CexEnv false c1CexConfig c1CexRules c1CexAttrs).result
        = .ok { isValid := false, violations := [unsatViolation c1CexConfig] } ∧
      z3Constraints c1CexAttrs c1CexRules = [.notE (.gt "A" 1)] ∧
      z3Assumptions c1CexAttrs c1CexRules c1CexConfig = .ok [.atom (.eq "A" 2)] ∧
      ¬ satisfiable [.notE (.gt "A" 1)] [.atom (.eq "A" 2)] := by
  refine ⟨by unfold allCategorical; decide, by decide, by rfl, by decide, by rfl, ?_⟩
  rintro ⟨σ, hc, ha⟩
  have h1 : σ "A" = 2 := ha (.atom (.eq "A" 2)) (by simp)
  have h2 := hc (.notE (.gt "A" 1)) (by simp)
  simp [Z3Expr.holds, Z3Cond.holds, h1] at h2

/-- C1 amended: deterministic and SAT validation agree on the validity
flag for rule sets over non-numeric attributes with unique ids and
distinct option strings, restricted to the operators `==`, `!=` and `in`
over (nonempty lists of) string literals, on fully-specified
configurations whose values are non-empty strings with distinct keys,
when the solver is not busy, nothing raises, and its answer is sound and
complete for the submitted formula.  The supported *ordering* operators
and cross-typed loose equality had to be dropped: the deterministic
evaluator compares `Number(...)` coercions while the SAT path compares
injective category codes, and the counterexample shows them disagreeing
already on `>` over string options. -/
theorem claim_C1_cross_engine_agreement (env : Z3Env) (attributes : List ProductAttribute)
    (rules : List Rule) (config : Configuration) (A : List Z3Expr) (out : SolverOutcome)
    (H1 : allCategorical attributes)
    (H5 : ∀ attr ∈ attributes,
      ((attr.options.getD []).map (fun o => valToString o.value)).Nodup)
    (H2 : ∀ attr ∈ attributes, attr.id ∈ config.map Prod.fst)
    (H3 : stringConfig config)
    (H4 : ∀ r ∈ rules, r.approved = true → wfRule attributes config r)
    (hinit : env.initFails = false)
    (hA : z3Assumptions attributes rules config = .ok A)
    (hcheck : env.check (z3Constraints attributes rules) A = .ok out)
    (hsound : out = SolverOutcome.unsat →
      ¬ satisfiable (z3Constraints attributes rules) A)
    (hcomplete : ¬ satisfiable (z3Constraints attributes rules) A →
      out = SolverOutcome.unsat) :
    Except.map ValidationResult.isValid (validateZ3 env false config rules attributes).result
      = .ok (validateDeterministic config rules attributes).isValid := by
  obtain ⟨A', hA', hiff⟩ := det_valid_iff_sat attributes rules config H1 H5 H2 H3 H4
  rw [hA'] at hA
  injection hA with hAA
  subst hAA
  rw [validateZ3_result_of_check env config rules attributes A' out hinit hA' hcheck]
  by_cases hs : satisfiable (z3Constraints attributes rules) A'
  · have hout : ¬ out = SolverOutcome.unsat := fun h => hsound h hs
    rw [if_neg hout, hiff.mpr hs]
    rfl
  · have hout : out = SolverOutcome.unsat := hcomplete hs
    have hdet : (validateDeterministic config rules attributes).isValid = false := by
      cases hb : (validateDeterministic config rules attributes).isValid
      · rfl
      · exact absurd (hiff.mp hb) hs
    rw [if_pos hout, hdet]
    rfl

/-- The amended-C1 witness schema: one string attribute with the single
option `"a"`. -/
def c1WitAttrs : List ProductAttribute :=
  [{ id := "A", name := "A", type := .string,
     options := some [⟨"a", .scalar (.str "a")⟩] }]

/-- The amended-C1 witness configuration. -/
def c1WitConfig : Configuration := [("A", Val.scalar (.str "a"))]

/-- The amended-C1 witness environment: a solver that answers `sat`
(correctly for this instance's empty constraint set). -/
def c1WitEnv : Z3Env := { initFails := false, check := fun _ _ => .ok .sat }

/-- Witness for the amended C1 at a concrete input: every hypothesis
holds, and both validators indeed report valid. -/
theorem claim_C1_cross_engine_agreement_witness :
    (Except.map ValidationResult.isValid
        (validateZ3 c1WitEnv false c1WitConfig [] c1WitAttrs).result
      = .ok (validateDeterministic c1WitConfig [] c1WitAttrs).isValid) ∧
      (validateDeterministic c1WitConfig [] c1WitAttrs).isValid = true := by
  refine ⟨claim_C1_cross_engine_agreement c1WitEnv c1WitAttrs [] c1WitConfig
    [.atom (.eq "A" 1)] .sat (by unfold allCategorical; decide) (by decide) (by decide)
    ?_ ?_ rfl rfl rfl ?_ ?_, by decide⟩
  · refine ⟨by decide, ?_⟩
    intro p hp
    simp only [c1WitConfig, List.mem_singleton] at hp
    subst hp
    exact ⟨"a", rfl, by decide⟩
  · intro r hr
    exact absurd hr (by simp)
  · intro h
    exact absurd h (by decide)
  · intro hns
    have hz : z3Constraints c1WitAttrs [] = ([] : List Z3Expr) := by decide
    refine absurd ⟨fun _ => 1, ?_, ?_⟩ hns
    · intro e he
      rw [hz] at he
      simp at he
    · intro e he
      simp only [List.mem_singleton] at he
      subst he
      rfl
